import Mathlib

set_option maxRecDepth 40000

/-!
Verification development for `load_problems.py`, a small pipeline that
generates arithmetic questions either from a remote JSON-producing service
or from a local procedural generator, normalizing raw text/answer pairs.

The Python code is embedded shallowly: strings become `List Char`,
Python `float` results are carried exactly as `Rat` (with an explicit
model of the IEEE-double overflow threshold and of `str()` rendering where
a claim depends on them), `None` becomes `Option`, and exceptions become
`Except`.  All recursive definitions are structural (fuel-based where the
Python loop is not), so every definition evaluates by kernel reduction.
-/

/-- Model of the Python whitespace class used by `str.strip()` and the
regex class `\s`, restricted to the ASCII whitespace characters
(space, tab, newline, carriage return, vertical tab, form feed). -/
def pySpace (c : Char) : Bool :=
  c == ' ' || c == '\t' || c == '\n' || c == '\r' || c == '\x0b' || c == '\x0c'

/-- Model of the regex class `\d` (decimal digit), restricted to ASCII. -/
def pyDigit (c : Char) : Bool :=
  48 ≤ c.toNat && c.toNat ≤ 57

/-- The four operator glyphs `+ - × ÷` that step 10 of `sanitize_text`
surrounds with spaces. -/
def isOp (c : Char) : Bool :=
  c == '+' || c == '-' || c == '×' || c == '÷'

/-- Python `str.lstrip()`. -/
def pyLstrip (l : List Char) : List Char := l.dropWhile pySpace

/-- Python `str.rstrip()`. -/
def pyRstrip (l : List Char) : List Char := (l.reverse.dropWhile pySpace).reverse

/-- Python `str.strip()`. -/
def pyStrip (l : List Char) : List Char := pyLstrip (pyRstrip l)

/-- Python `str.rstrip('=')`: removes every trailing `'='` character. -/
def pyRstripEq (l : List Char) : List Char :=
  (l.reverse.dropWhile (fun c => c == '=')).reverse

/-- Fueled worker for `pyReplace`; the fuel only guarantees structural
termination and is always instantiated with the string length, which is
sufficient for every non-empty pattern. -/
def pyReplaceF (pat repl : List Char) : Nat → List Char → List Char
  | _, [] => []
  | 0, l => l
  | n+1, c :: t =>
    if pat.isPrefixOf (c :: t) then
      repl ++ pyReplaceF pat repl n ((c :: t).drop pat.length)
    else
      c :: pyReplaceF pat repl n t

/-- Python `str.replace(pat, repl)` (left-to-right, non-overlapping); used
with the non-empty literal patterns appearing in `load_problems.py`. -/
def pyReplace (pat repl l : List Char) : List Char :=
  pyReplaceF pat repl l.length l

/-- The optional leading sign of the plain-number regex `[-+]?`, as the
sign factor together with the remaining characters. -/
def signSplitR (l : List Char) : Rat × List Char :=
  match l with
  | c :: t => if c = '-' then (-1, t) else if c = '+' then (1, t) else (1, l)
  | [] => (1, l)

/-- The optional leading minus of the regex `-?`, as a flag together with
the remaining characters. -/
def negSplit (l : List Char) : Bool × List Char :=
  match l with
  | c :: t => if c = '-' then (true, t) else (false, l)
  | [] => (false, l)

/-- Attempts to match the regex `\\frac\{(-?\d+)\}\{(-?\d+)\}` at the head
of the list; on success returns the replacement `\1/\2` together with the
unconsumed rest of the input. -/
def matchFrac (l : List Char) : Option (List Char × List Char) :=
  match l with
  | '\\' :: 'f' :: 'r' :: 'a' :: 'c' :: '\x7b' :: r1 =>
    let p1 := negSplit r1
    let d1 := p1.2.takeWhile pyDigit
    let r3 := p1.2.dropWhile pyDigit
    if d1 = [] then none else
    match r3 with
    | '\x7d' :: '\x7b' :: r4 =>
      let p2 := negSplit r4
      let d2 := p2.2.takeWhile pyDigit
      let r6 := p2.2.dropWhile pyDigit
      if d2 = [] then none else
      match r6 with
      | '\x7d' :: r7 =>
        some ((if p1.1 then ['-'] else []) ++ d1 ++
          '/' :: ((if p2.1 then ['-'] else []) ++ d2), r7)
      | _ => none
    | _ => none
  | _ => none

/-- Fueled worker for `fracSub`. -/
def fracSubF : Nat → List Char → List Char
  | _, [] => []
  | 0, l => l
  | n+1, c :: t =>
    match matchFrac (c :: t) with
    | some (repl, rest) => repl ++ fracSubF n rest
    | none => c :: fracSubF n t

/-- Python `re.sub(r'\\frac\{(-?\d+)\}\{(-?\d+)\}', r'\1/\2', s)`:
rewrites each markup fraction into `numerator/denominator`. -/
def fracSub (l : List Char) : List Char := fracSubF l.length l

/-- State machine for `re.sub(r'\\[^\s]*', '', s)`: the flag records
whether we are inside a backslash-escape token being deleted. -/
def dropBSF : List Char → Bool → List Char
  | [], _ => []
  | c :: t, true => if pySpace c then c :: dropBSF t false else dropBSF t true
  | c :: t, false => if c == '\\' then dropBSF t true else c :: dropBSF t false

/-- Python `re.sub(r'\\[^\s]*', '', s)`: removes every backslash together
with the run of non-whitespace characters following it. -/
def dropBS (l : List Char) : List Char := dropBSF l false

/-- Python `re.sub(r'\s+', ' ', s)`: collapses every maximal run of
whitespace to a single space. -/
def collapseWS : List Char → List Char
  | [] => []
  | c :: t =>
    let r := collapseWS t
    if pySpace c then (if r.head? = some ' ' then r else ' ' :: r) else c :: r

/-- `sanitize_text` from `load_problems.py`, on character lists.  Follows
the source line by line:
`strip`, remove `$`, fraction rewrite, `\times`/`\\times` to `×`,
`\div`/`\\div` to `÷`, `\cdot` to `×`, drop remaining backslash tokens,
`rstrip().rstrip('=').strip()`, space the four operators, collapse
whitespace and strip. -/
def sanitizeTextCore (l : List Char) : List Char :=
  let s1 := pyStrip l
  let s2 := s1.filter (fun c => c ≠ '$')
  let s3 := fracSub s2
  let s4 := pyReplace ['\\', 't', 'i', 'm', 'e', 's'] ['×'] s3
  let s5 := pyReplace ['\\', '\\', 't', 'i', 'm', 'e', 's'] ['×'] s4
  let s6 := pyReplace ['\\', 'd', 'i', 'v'] ['÷'] s5
  let s7 := pyReplace ['\\', '\\', 'd', 'i', 'v'] ['÷'] s6
  let s8 := pyReplace ['\\', 'c', 'd', 'o', 't'] ['×'] s7
  let s9 := dropBS s8
  let s10 := pyStrip (pyRstripEq (pyRstrip s9))
  let s11 := pyReplace ['+'] [' ', '+', ' '] s10
  let s12 := pyReplace ['-'] [' ', '-', ' '] s11
  let s13 := pyReplace ['×'] [' ', '×', ' '] s12
  let s14 := pyReplace ['÷'] [' ', '÷', ' '] s13
  pyStrip (collapseWS s14)

/-- `sanitize_text` from `load_problems.py`: `None` yields the empty
string, otherwise the cleaning pipeline `sanitizeTextCore` runs on the
stripped text. -/
def sanitize_text (s : Option String) : String :=
  match s with
  | none => ""
  | some s => String.mk (sanitizeTextCore s.data)

/-- Numeric value of a list of ASCII digit characters, most significant
first (the value `float`/`int` assign to a digit string). -/
def digitsToNat (l : List Char) : Nat :=
  l.foldl (fun acc c => 10 * acc + (c.toNat - 48)) 0

/-- After the integer digit block of the plain-number rule: either the end
of the string, or a decimal point followed by a digit block ending the
string; yields the exact rational value. -/
def plainAfterInt (sgn : Rat) (ival : Nat) (r1 : List Char) : Option Rat :=
  if r1 = [] then some (sgn * (ival : Rat))
  else if r1.head? = some '.' then
    if r1.tail.takeWhile pyDigit = [] ∨ r1.tail.dropWhile pyDigit ≠ [] then none
    else some (sgn * ((ival : Rat)
      + (digitsToNat (r1.tail.takeWhile pyDigit) : Rat) / 10 ^ (r1.tail.takeWhile pyDigit).length))
  else none

/-- The digit block of the plain-number rule, then `plainAfterInt` on the
remainder. -/
def plainTail (sgn : Rat) (rest : List Char) : Option Rat :=
  if rest.takeWhile pyDigit = [] then none
  else plainAfterInt sgn (digitsToNat (rest.takeWhile pyDigit)) (rest.dropWhile pyDigit)

/-- Matcher for `re.fullmatch(r'[-+]?\d+(\.\d+)?', s)` followed by
`float(s)`: the optional sign, then `plainTail`. -/
def plainMatch (l : List Char) : Option Rat :=
  plainTail (signSplitR l).1 (signSplitR l).2

/-- After the slash of the fraction rule: optional whitespace then the
denominator digit block ending the string, yielding the two captured
integers. -/
def fracAfterSlash (neg : Bool) (ival : Nat) (r3 : List Char) : Option (Int × Nat) :=
  if (r3.dropWhile pySpace).takeWhile pyDigit = [] ∨ (r3.dropWhile pySpace).dropWhile pyDigit ≠ []
  then none
  else some ((if neg then -(ival : Int) else (ival : Int)),
    digitsToNat ((r3.dropWhile pySpace).takeWhile pyDigit))

/-- The numerator digit block of the fraction rule, optional whitespace,
the slash, then `fracAfterSlash` on the remainder. -/
def fracTail (neg : Bool) (rest : List Char) : Option (Int × Nat) :=
  if rest.takeWhile pyDigit = [] then none else
  if ((rest.dropWhile pyDigit).dropWhile pySpace).head? = some '/' then
    fracAfterSlash neg (digitsToNat (rest.takeWhile pyDigit))
      ((rest.dropWhile pyDigit).dropWhile pySpace).tail
  else none

/-- Matcher for `re.fullmatch(r'(-?\d+)\s*/\s*(\d+)', s)`: the optional
minus, then `fracTail`. -/
def fracMatch (l : List Char) : Option (Int × Nat) :=
  fracTail (negSplit l).1 (negSplit l).2

/-- The cleaning prefix of `sanitize_answer`:
`str(a).strip().replace("$", "").replace(r'\,', '').replace('\u2212', '-')`. -/
def cleanAns (l : List Char) : List Char :=
  (pyReplace ['\\', ','] [] ((pyStrip l).filter (fun c => c ≠ '$'))).map
    (fun c => if c = '\u2212' then '-' else c)

/-- `sanitize_answer` from `load_problems.py`: cleans the raw string,
tries the plain-number rule on the comma-free candidate, then the
fraction rule on the pre-comma-strip string (zero denominators are
rejected).  The Python `float` result is carried exactly as a `Rat`. -/
def sanitize_answer (a : Option String) : Option Rat :=
  match a with
  | none => none
  | some a =>
    let s := cleanAns a.data
    let s_plain := s.filter (fun c => c ≠ ',')
    match plainMatch s_plain with
    | some v => some v
    | none =>
      match fracMatch s with
      | some nd => if nd.2 = 0 then none else some ((nd.1 : Rat) / (nd.2 : Rat))
      | none => none

/-- JSON values, as produced by Python `json.loads` (objects keep their
key/value pairs in document order). -/
inductive JVal where
  | null
  | bool (b : Bool)
  | num (q : Rat)
  | str (s : String)
  | arr (elems : List JVal)
  | obj (fields : List (String × JVal))

/-- Python exceptions relevant to this pipeline. -/
inductive PyErr where
  | typeErr
  | valueErr
  | attributeErr
  deriving DecidableEq

/-- JSON insignificant whitespace. -/
def jsonWs (c : Char) : Bool := c == ' ' || c == '\t' || c == '\n' || c == '\r'

/-- Skips JSON insignificant whitespace. -/
def jskip (l : List Char) : List Char := l.dropWhile jsonWs

/-- Parses the remainder of a JSON string literal (after the opening
quote); escape sequences are not modeled. -/
def parseJStr : List Char → Option (List Char × List Char)
  | [] => none
  | '"' :: r => some ([], r)
  | '\\' :: _ => none
  | c :: r => (parseJStr r).map (fun p => (c :: p.1, p.2))

/-- Parses a JSON number (integer or decimal fraction; exponents are not
modeled), returning its exact rational value. -/
def parseJNum (l : List Char) : Option (Rat × List Char) :=
  let p : Bool × List Char :=
    match l with
    | '-' :: t => (true, t)
    | t => (false, t)
  let d1 := p.2.takeWhile pyDigit
  let r1 := p.2.dropWhile pyDigit
  if d1 = [] then none else
  match r1 with
  | '.' :: r2 =>
    let d2 := r2.takeWhile pyDigit
    let r3 := r2.dropWhile pyDigit
    if d2 = [] then none
    else some (((if p.1 then -1 else 1) : Rat) *
      ((digitsToNat d1 : Rat) + (digitsToNat d2 : Rat) / 10 ^ d2.length), r3)
  | _ => some (((if p.1 then -1 else 1) : Rat) * (digitsToNat d1 : Rat), r1)

mutual

/-- Fueled recursive-descent JSON value parser (model of `json.loads`). -/
def parseJVal : Nat → List Char → Option (JVal × List Char)
  | 0, _ => none
  | f+1, l =>
    match jskip l with
    | 'n' :: 'u' :: 'l' :: 'l' :: r => some (.null, r)
    | 't' :: 'r' :: 'u' :: 'e' :: r => some (.bool true, r)
    | 'f' :: 'a' :: 'l' :: 's' :: 'e' :: r => some (.bool false, r)
    | '"'::r => (parseJStr r).map (fun p => (.str (String.mk p.1), p.2))
    | '['::r =>
      match jskip r with
      | ']'::r2 => some (.arr [], r2)
      | _ => (parseJItems f r).map (fun p => (.arr p.1, p.2))
    | '\x7b'::r =>
      match jskip r with
      | '\x7d'::r2 => some (.obj [], r2)
      | _ => (parseJFields f r).map (fun p => (.obj p.1, p.2))
    | l2 => (parseJNum l2).map (fun p => (.num p.1, p.2))

/-- Parses the non-empty item list of a JSON array, including the closing
bracket. -/
def parseJItems : Nat → List Char → Option (List JVal × List Char)
  | 0, _ => none
  | f+1, l =>
    match parseJVal f l with
    | none => none
    | some (v, r) =>
      match jskip r with
      | ','::r2 => (parseJItems f r2).map (fun p => (v :: p.1, p.2))
      | ']'::r2 => some ([v], r2)
      | _ => none

/-- Parses the non-empty member list of a JSON object, including the
closing brace. -/
def parseJFields : Nat → List Char → Option (List (String × JVal) × List Char)
  | 0, _ => none
  | f+1, l =>
    match jskip l with
    | '"'::r =>
      match parseJStr r with
      | none => none
      | some (k, r2) =>
        match jskip r2 with
        | ':'::r3 =>
          match parseJVal f r3 with
          | none => none
          | some (v, r4) =>
            match jskip r4 with
            | ','::r5 => (parseJFields f r5).map (fun p => ((String.mk k, v) :: p.1, p.2))
            | '\x7d'::r5 => some ([(String.mk k, v)], r5)
            | _ => none
        | _ => none
    | _ => none

end

/-- Model of Python `json.loads`: parse one JSON document, reject
trailing garbage; `none` models a raised `JSONDecodeError`. -/
def jsonLoads (s : String) : Option JVal :=
  match parseJVal (2 * s.length + 2) s.data with
  | none => none
  | some (v, r) => if jskip r = [] then some v else none

/-- Python `dict.get(key, dflt)` on a dict built from a JSON object
(a later duplicate key overwrites an earlier one, hence the `reverse`). -/
def dictGet (fields : List (String × JVal)) (key : String) (dflt : JVal) : JVal :=
  match fields.reverse.find? (fun kv => kv.1 == key) with
  | some kv => kv.2
  | none => dflt

/-- `fetch_questions_openai` from `load_problems.py`, parameterized by the
outcome `call` of everything that precedes the `try` block: the prompt
construction `PROMPT_TEMPLATE.format(...)`, the
`client.chat.completions.create(...)` network call and the
`response.choices[0].message.content` access.  An exception raised there
propagates (it is outside the `try`).  Inside the `try`,
`json.loads` failure returns `[]`, and `data.get("Questions", [])` on a
non-dict raises `AttributeError`, which the `except` also turns into `[]`. -/
def fetch_questions_openai (call : Except PyErr String) : Except PyErr JVal :=
  match call with
  | .error e => .error e
  | .ok content =>
    match jsonLoads content with
    | none => .ok (JVal.arr [])
    | some (JVal.obj fields) => .ok (dictGet fields "Questions" (JVal.arr []))
    | some _ => .ok (JVal.arr [])

/-- The four operation labels, in the order `generate_questions` iterates
them (also the insertion order of `OP_FUNCS`). -/
def operations : List String :=
  ["Addition", "Substraction", "Multiplication", "Division"]

/-- Python `list.extend(v)`: extends by an iterable, raising `TypeError`
on a non-iterable (a string iterates its characters, a dict its keys). -/
def pyExtend (acc : List JVal) (v : JVal) : Except PyErr (List JVal) :=
  match v with
  | .arr l => .ok (acc ++ l)
  | .str s => .ok (acc ++ s.data.map (fun c => JVal.str (String.mk [c])))
  | .obj fields => .ok (acc ++ fields.map (fun f => JVal.str f.1))
  | _ => .error PyErr.typeErr

/-- The remote-mode loop of `generate_questions`: fetch per operation and
`extend`; nothing catches exceptions here, so an error aborts the loop. -/
def remoteLoop (remoteCall : String → Except PyErr String) :
    List String → List JVal → Except PyErr (List JVal)
  | [], acc => .ok acc
  | op :: rest, acc =>
    match fetch_questions_openai (remoteCall op) with
    | .error e => .error e
    | .ok qs =>
      match pyExtend acc qs with
      | .error e => .error e
      | .ok acc2 => remoteLoop remoteCall rest acc2

/-- One iteration of the local-mode loop body: the generator outcome is
either an exception (caught: item skipped) or a raw `(q_text, q_answer)`
pair, which is sanitized; an unparseable answer skips the item, otherwise
the canonical record is built. -/
def localItem (op : String) (res : Except PyErr (Option String × Option String)) :
    Option JVal :=
  match res with
  | .error _ => none
  | .ok pair =>
    match sanitize_answer pair.2 with
    | none => none
    | some ans =>
      some (JVal.obj [("Text", JVal.str (sanitize_text pair.1)),
                      ("Operation", JVal.str op),
                      ("status", JVal.str "Available"),
                      ("Answer", JVal.num ans)])

/-- `generate_questions` from `load_problems.py`.  `use_openai` models
`USE_OPENAI`; `remoteCall op` models the pre-`try` part of the remote
fetch for operation `op`; `localGen op i` models the `i`-th call of the
local generator for `op` (raw values are passed in their `str()` form,
`none` modeling Python `None`). -/
def generate_questions (use_openai : Bool)
    (remoteCall : String → Except PyErr String)
    (localGen : String → Nat → Except PyErr (Option String × Option String))
    (per_op : Nat) : Except PyErr JVal :=
  if use_openai then
    match remoteLoop remoteCall operations [] with
    | .error e => .error e
    | .ok all => .ok (JVal.obj [("Questions", JVal.arr all)])
  else
    .ok (JVal.obj [("Questions", JVal.arr
      (operations.foldr (fun op acc =>
        ((List.range per_op).filterMap (fun i => localItem op (localGen op i))) ++ acc) []))])

/-- Whether a JSON value is a number. -/
def isNumV : JVal → Bool
  | .num _ => true
  | _ => false

/-- Whether a question record (a JSON object) carries a numeric
`"Answer"` field. -/
def answerIsNum : JVal → Bool
  | .obj fields => isNumV (dictGet fields "Answer" JVal.null)
  | _ => false

/-- Whether an output document `{"Questions": [...]}` contains a record
whose `"Answer"` is JSON `null`. -/
def hasNullAnswer : JVal → Bool
  | .obj fields =>
    match dictGet fields "Questions" (JVal.arr []) with
    | .arr items =>
      items.any (fun it =>
        match it with
        | .obj fs =>
          match dictGet fs "Answer" (JVal.num 0) with
          | .null => true
          | _ => false
        | _ => false)
    | _ => false
  | _ => false

/-- Big-endian decimal digit characters of `n` (fueled worker). -/
def natDigitsAux : Nat → Nat → List Char
  | 0, _ => []
  | _+1, 0 => []
  | f+1, n => natDigitsAux f (n / 10) ++ [Char.ofNat (48 + n % 10)]

/-- Big-endian decimal digit characters of `n` (`"0"` for zero). -/
def natDigits (n : Nat) : List Char :=
  if n = 0 then ['0'] else natDigitsAux n n

/-- Exactly `w` decimal digit characters of `v % 10 ^ w`, left-padded
with zeros. -/
def digitsFixed : Nat → Nat → List Char
  | 0, _ => []
  | w+1, v => digitsFixed w (v / 10) ++ [Char.ofNat (48 + v % 10)]

/-- Least `k` with `d ∣ 10 ^ k`, searched up to `d` (sufficient whenever
such a `k` exists at all). -/
def decScale (d : Nat) : Nat :=
  ((List.range (d + 1)).find? (fun k => decide (d ∣ 10 ^ k))).getD 0

/-- Scientific rendering of the integer `n` in Python float `repr` shape,
e.g. `12300000000000000 ↦ "1.23e+16"`. -/
def sciDigits (n : Nat) : List Char :=
  let ds := natDigits n
  let mant := ((ds.drop 1).reverse.dropWhile (fun c => c == '0')).reverse
  ds.take 1 ++ (if mant = [] then [] else '.' :: mant) ++ 'e' :: '+' :: natDigits (ds.length - 1)

/-- The positional digit layout of CPython `str()` on a float holding a
finite-decimal rational: the exact digit run, scaled by the least power
of ten clearing the denominator (these are the values the plain-number
rule produces, for which the shortest repr of the double is the decimal
the value came from); `pyFloatStr` below selects this branch exactly when
the rounded double prints positionally.  Values printed scientifically
are rendered by `sciDigits` from the exact numerator — faithful for the
integral values exercised below, and harmless elsewhere since every
scientific string contains `'e'` and is rejected by `sanitize_answer`. -/
def pyFloatStrPos (q : Rat) : List Char :=
  if decScale q.den = 0 then
    natDigits ((q.num * 10 ^ decScale q.den / (q.den : Int)).natAbs) ++ ['.', '0']
  else
    natDigits ((q.num * 10 ^ decScale q.den / (q.den : Int)).natAbs / 10 ^ decScale q.den) ++
      '.' :: digitsFixed (decScale q.den)
        ((q.num * 10 ^ decScale q.den / (q.den : Int)).natAbs % 10 ^ decScale q.den)

/-- Model of CPython `str()` on the float a sanitized answer becomes.
CPython picks positional versus scientific notation from the IEEE-rounded
double, not from the exact decimal value, so the positional branch is
taken only for magnitudes below `10¹⁶ - 1`: consecutive doubles are `2`
apart at that magnitude, `10¹⁶ - 2` and `10¹⁶` are both doubles, and
every exact value in `[10¹⁶ - 1, 10¹⁶)` rounds to the double `10¹⁶` (the
tie at `10¹⁶ - 1` goes to the even significand `5·10¹⁵`), which prints
as `"1e+16"`.  Below the threshold no such crossing exists: any exact
magnitude in `[10⁻⁴, 10¹⁶ - 1)` rounds to a double that still prints
positionally (`10⁻⁴` itself rounds up, away from the scientific range). -/
def pyFloatStr (q : Rat) : String :=
  if q = 0 then "0.0" else
  if 1 / 10 ^ 4 ≤ |q| ∧ |q| < 10 ^ 16 - 1 then
    String.mk ((if q < 0 then ['-'] else []) ++ pyFloatStrPos q)
  else
    String.mk ((if q < 0 then ['-'] else []) ++ sciDigits q.num.natAbs)

/-- Model of finiteness of the CPython float conversion: a decimal value
converts to a finite double exactly when its magnitude rounds below
`2^1024`, i.e. is less than `2^1024 - 2^970`; beyond that `float()`
saturates to infinity. -/
def pyFloatIsFinite (q : Rat) : Bool :=
  decide (|q| < 2 ^ 1024 - 2 ^ 970)

/-- Checks a binary relation on every adjacent pair of characters. -/
def adjAll (R : Char → Char → Bool) : List Char → Bool
  | [] => true
  | [_] => true
  | a :: b :: t => R a b && adjAll R (b :: t)

/-- Adjacent-pair relation: an operator glyph only ever sits next to a
space (on either side). -/
def opSpacedR (a b : Char) : Bool :=
  (!isOp a || b == ' ') && (!isOp b || a == ' ')

/-- Adjacent-pair relation: no two consecutive spaces. -/
def noDblSpaceR (a b : Char) : Bool :=
  !(a == ' ' && b == ' ')

/-- The claim-as-stated reading of "exactly one space character on each
side": every operator occurrence has a character on both sides and both
neighbours are spaces. -/
def opsExactlySpaced (l : List Char) : Bool :=
  (List.range l.length).all (fun i =>
    !isOp (l.getD i ' ') ||
      (decide (0 < i) && decide (i + 1 < l.length) &&
        l.getD (i - 1) 'x' == ' ' && l.getD (i + 1) 'x' == ' '))

/-- Step 10 of `sanitize_text` as a single pass: surround every operator
glyph with single spaces. -/
def expandOps (l : List Char) : List Char :=
  l.flatMap (fun c => if isOp c then [' ', c, ' '] else [c])

/-- Whether `pat` occurs as a contiguous substring of `l`. -/
def hasSub (pat : List Char) : List Char → Bool
  | [] => pat.isPrefixOf []
  | c :: t => pat.isPrefixOf (c :: t) || hasSub pat t

/-- The single space that step 10 leaves in front of a string starting
with an operator glyph (empty otherwise). -/
def opLead (l : List Char) : List Char :=
  match l.head? with
  | some h => if isOp h then [' '] else []
  | none => []

/-- The single space that step 10 leaves behind a string ending in an
operator glyph (empty otherwise). -/
def opTrail (l : List Char) : List Char :=
  match l.getLast? with
  | some h => if isOp h then [' '] else []
  | none => []


/-- Characters with different code points are different. -/
theorem ne_of_toNat_ne {c d : Char} (h : c.toNat ≠ d.toNat) : c ≠ d :=
  fun e => h (congrArg Char.toNat e)

/-- The code-point bounds defining `pyDigit`. -/
theorem pyDigit_bounds {c : Char} (h : pyDigit c = true) :
    48 ≤ c.toNat ∧ c.toNat ≤ 57 := by
  simpa [pyDigit] using h

/-- A digit differs from any character whose code point is outside the
digit range. -/
theorem pyDigit_ne {c d : Char} (h : pyDigit c = true)
    (hd : d.toNat < 48 ∨ 57 < d.toNat) : c ≠ d := by
  obtain ⟨h1, h2⟩ := pyDigit_bounds h
  intro e
  subst e
  omega

/-- Enumeration of the modeled whitespace characters. -/
theorem pySpace_cases {c : Char} (h : pySpace c = true) :
    c = ' ' ∨ c = '\t' ∨ c = '\n' ∨ c = '\r' ∨ c = '\x0b' ∨ c = '\x0c' := by
  simpa [pySpace, beq_iff_eq, or_assoc] using h

/-- Whitespace characters have code points at most 32. -/
theorem pySpace_toNat_le {c : Char} (h : pySpace c = true) : c.toNat ≤ 32 := by
  rcases pySpace_cases h with rfl | rfl | rfl | rfl | rfl | rfl <;> decide

/-- A whitespace character differs from any character with a code point
above 32. -/
theorem pySpace_ne {c d : Char} (h : pySpace c = true)
    (hd : 32 < d.toNat) : c ≠ d := by
  have := pySpace_toNat_le h
  intro e
  subst e
  omega

/-- Digits are not whitespace. -/
theorem pyDigit_not_space {c : Char} (h : pyDigit c = true) : pySpace c = false := by
  cases hs : pySpace c
  · rfl
  · have := pySpace_toNat_le hs
    have := (pyDigit_bounds h).1
    omega

/-- Enumeration of the operator glyphs. -/
theorem isOp_cases {c : Char} (h : isOp c = true) :
    c = '+' ∨ c = '-' ∨ c = '×' ∨ c = '÷' := by
  simpa [isOp, beq_iff_eq, or_assoc] using h

/-- Operator glyphs are not whitespace. -/
theorem isOp_not_space {c : Char} (h : isOp c = true) : pySpace c = false := by
  cases hs : pySpace c
  · rfl
  · have := pySpace_toNat_le hs
    rcases isOp_cases h with rfl | rfl | rfl | rfl <;> simp_all

/-- Digits are not operator glyphs. -/
theorem pyDigit_not_op {c : Char} (h : pyDigit c = true) : isOp c = false := by
  obtain ⟨h1, h2⟩ := pyDigit_bounds h
  cases ho : isOp c
  · rfl
  · rcases isOp_cases ho with rfl | rfl | rfl | rfl <;> simp_all

/-- `takeWhile` passes over a block of satisfying elements. -/
theorem takeWhile_app_all {p : Char → Bool} {a : List Char} (b : List Char)
    (h : ∀ c ∈ a, p c = true) :
    (a ++ b).takeWhile p = a ++ b.takeWhile p := by
  induction a with
  | nil => simp
  | cons x t ih =>
    have hx : p x = true := h x (by simp)
    simp only [List.cons_append, List.takeWhile_cons, hx, if_true]
    rw [ih (fun c hc => h c (by simp [hc]))]

/-- `dropWhile` consumes a block of satisfying elements. -/
theorem dropWhile_app_all {p : Char → Bool} {a : List Char} (b : List Char)
    (h : ∀ c ∈ a, p c = true) :
    (a ++ b).dropWhile p = b.dropWhile p := by
  induction a with
  | nil => simp
  | cons x t ih =>
    have hx : p x = true := h x (by simp)
    simp only [List.cons_append, List.dropWhile_cons, hx, if_true]
    exact ih (fun c hc => h c (by simp [hc]))

/-- `dropWhile` is the identity when the head fails the predicate. -/
theorem dropWhile_eq_self_of_head {p : Char → Bool} {l : List Char}
    (h : ∀ c, l.head? = some c → p c = false) : l.dropWhile p = l := by
  cases l with
  | nil => rfl
  | cons x t => simp [List.dropWhile_cons, h x rfl]

/-- `takeWhile` is empty when the head fails the predicate. -/
theorem takeWhile_eq_nil_of_head {p : Char → Bool} {l : List Char}
    (h : ∀ c, l.head? = some c → p c = false) : l.takeWhile p = [] := by
  cases l with
  | nil => rfl
  | cons x t => simp [List.takeWhile_cons, h x rfl]

/-- Membership transfer out of `pyRstrip`. -/
theorem mem_pyRstrip {c : Char} {l : List Char} (h : c ∈ pyRstrip l) : c ∈ l := by
  unfold pyRstrip at h
  rw [List.mem_reverse] at h
  exact List.mem_reverse.mp (List.Sublist.mem h (List.dropWhile_sublist _))

/-- Membership transfer out of `pyLstrip`. -/
theorem mem_pyLstrip {c : Char} {l : List Char} (h : c ∈ pyLstrip l) : c ∈ l :=
  List.Sublist.mem h (List.dropWhile_sublist _)

/-- Membership transfer out of `pyStrip`. -/
theorem mem_pyStrip {c : Char} {l : List Char} (h : c ∈ pyStrip l) : c ∈ l :=
  mem_pyRstrip (mem_pyLstrip h)

/-- Membership transfer out of `pyRstripEq`. -/
theorem mem_pyRstripEq {c : Char} {l : List Char} (h : c ∈ pyRstripEq l) : c ∈ l := by
  unfold pyRstripEq at h
  rw [List.mem_reverse] at h
  exact List.mem_reverse.mp (List.Sublist.mem h (List.dropWhile_sublist _))

/-- Characters of a replaced string come from the input or the
replacement text. -/
theorem mem_pyReplaceF {c : Char} {pat repl : List Char} :
    ∀ (n : Nat) (l : List Char), c ∈ pyReplaceF pat repl n l → c ∈ repl ∨ c ∈ l := by
  intro n
  induction n with
  | zero =>
    intro l h
    cases l with
    | nil => simp [pyReplaceF] at h
    | cons x t => simp only [pyReplaceF] at h; exact Or.inr h
  | succ n ih =>
    intro l h
    cases l with
    | nil => simp [pyReplaceF] at h
    | cons x t =>
      simp only [pyReplaceF] at h
      split at h
      · rcases List.mem_append.mp h with h1 | h1
        · exact Or.inl h1
        · rcases ih _ h1 with h2 | h2
          · exact Or.inl h2
          · exact Or.inr (List.mem_of_mem_drop h2)
      · rcases List.mem_cons.mp h with h1 | h1
        · exact Or.inr (h1 ▸ List.mem_cons_self x t)
        · rcases ih _ h1 with h2 | h2
          · exact Or.inl h2
          · exact Or.inr (List.mem_cons_of_mem x h2)

/-- `pyReplace` never matches when the pattern head does not occur. -/
theorem pyReplaceF_eq_self {p : Char} {ps repl : List Char} :
    ∀ (n : Nat) (l : List Char), p ∉ l → pyReplaceF (p :: ps) repl n l = l := by
  intro n
  induction n with
  | zero => intro l _; cases l <;> simp [pyReplaceF]
  | succ n ih =>
    intro l hp
    cases l with
    | nil => simp [pyReplaceF]
    | cons x t =>
      have hpx : ¬ ((p :: ps).isPrefixOf (x :: t) = true) := by
        intro hpre
        have : p = x := by
          rcases List.isPrefixOf_iff_prefix.mp hpre with ⟨u, hu⟩
          exact (List.cons_eq_cons.mp hu.symm).1.symm
        exact hp (this ▸ List.mem_cons_self x t)
      simp only [pyReplaceF, if_neg hpx]
      rw [ih t (fun hm => hp (List.mem_cons_of_mem x hm))]

/-- A successful fraction-markup match starts with a backslash. -/
theorem matchFrac_head {l : List Char} {r : List Char × List Char}
    (h : matchFrac l = some r) : ∃ t, l = '\\' :: t := by
  unfold matchFrac at h
  split at h
  · next r1 heq => exact ⟨_, rfl⟩
  · exact absurd h (by simp)

/-- `fracSub` is the identity on backslash-free strings. -/
theorem fracSubF_eq_self :
    ∀ (n : Nat) (l : List Char), '\\' ∉ l → fracSubF n l = l := by
  intro n
  induction n with
  | zero => intro l _; cases l <;> simp [fracSubF]
  | succ n ih =>
    intro l hb
    cases l with
    | nil => simp [fracSubF]
    | cons x t =>
      have hm : matchFrac (x :: t) = none := by
        cases hmf : matchFrac (x :: t) with
        | none => rfl
        | some r =>
          obtain ⟨t2, ht2⟩ := matchFrac_head hmf
          rw [List.cons_eq_cons] at ht2
          exact absurd (ht2.1 ▸ List.mem_cons_self x t) hb
      simp only [fracSubF, hm]
      rw [ih t (fun hmem => hb (List.mem_cons_of_mem x hmem))]

/-- Characters surviving `dropBSF` come from the input. -/
theorem mem_dropBSF {c : Char} :
    ∀ (l : List Char) (b : Bool), c ∈ dropBSF l b → c ∈ l := by
  intro l
  induction l with
  | nil => intro b h; simp [dropBSF] at h
  | cons x t ih =>
    intro b h
    cases b with
    | true =>
      simp only [dropBSF] at h
      split at h
      · rcases List.mem_cons.mp h with h1 | h1
        · exact h1 ▸ List.mem_cons_self x t
        · exact List.mem_cons_of_mem x (ih _ h1)
      · exact List.mem_cons_of_mem x (ih _ h)
    | false =>
      simp only [dropBSF] at h
      split at h
      · exact List.mem_cons_of_mem x (ih _ h)
      · rcases List.mem_cons.mp h with h1 | h1
        · exact h1 ▸ List.mem_cons_self x t
        · exact List.mem_cons_of_mem x (ih _ h1)

/-- `dropBSF` removes every backslash. -/
theorem bs_not_mem_dropBSF : ∀ (l : List Char) (b : Bool), '\\' ∉ dropBSF l b := by
  intro l
  induction l with
  | nil => intro b h; simp [dropBSF] at h
  | cons x t ih =>
    intro b h
    cases b with
    | true =>
      simp only [dropBSF] at h
      split at h
      · next hsp =>
        rcases List.mem_cons.mp h with h1 | h1
        · exact absurd (h1 ▸ hsp) (by decide)
        · exact ih _ h1
      · exact ih _ h
    | false =>
      simp only [dropBSF] at h
      split at h
      · exact ih _ h
      · next hne =>
        rcases List.mem_cons.mp h with h1 | h1
        · subst h1; simp at hne
        · exact ih _ h1

/-- `dropBS` is the identity on backslash-free strings. -/
theorem dropBSF_eq_self : ∀ (l : List Char), '\\' ∉ l → dropBSF l false = l := by
  intro l
  induction l with
  | nil => intro _; rfl
  | cons x t ih =>
    intro hb
    have hx : ¬ (x == '\\') = true := by
      simp only [beq_iff_eq]
      intro e
      exact hb (e ▸ List.mem_cons_self x t)
    simp only [dropBSF, if_neg hx]
    rw [ih (fun hm => hb (List.mem_cons_of_mem x hm))]

/-- Characters of the collapsed string come from the input or are the
space introduced for a run. -/
theorem mem_collapseWS {c : Char} :
    ∀ (l : List Char), c ∈ collapseWS l → c ∈ l ∨ c = ' ' := by
  intro l
  induction l with
  | nil => intro h; simp [collapseWS] at h
  | cons x t ih =>
    intro h
    simp only [collapseWS] at h
    split at h
    · split at h
      · rcases ih h with h1 | h1
        · exact Or.inl (List.mem_cons_of_mem x h1)
        · exact Or.inr h1
      · rcases List.mem_cons.mp h with h1 | h1
        · exact Or.inr h1
        · rcases ih h1 with h2 | h2
          · exact Or.inl (List.mem_cons_of_mem x h2)
          · exact Or.inr h2
    · rcases List.mem_cons.mp h with h1 | h1
      · exact Or.inl (h1 ▸ List.mem_cons_self x t)
      · rcases ih h1 with h2 | h2
        · exact Or.inl (List.mem_cons_of_mem x h2)
        · exact Or.inr h2

/-- The Unicode-minus substitution is the identity when no Unicode minus
occurs. -/
theorem map_minus_eq_self {l : List Char} (h : '−' ∉ l) :
    l.map (fun c => if c = '−' then '-' else c) = l := by
  induction l with
  | nil => rfl
  | cons x t ih =>
    have hx : ¬ x = '−' := fun e => h (e ▸ List.mem_cons_self x t)
    simp only [List.map_cons, if_neg hx]
    rw [ih (fun hm => h (List.mem_cons_of_mem x hm))]

/-- `pyRstrip` is the identity when the last character is not whitespace. -/
theorem pyRstrip_eq_self {l : List Char}
    (h : ∀ c, l.getLast? = some c → pySpace c = false) : pyRstrip l = l := by
  unfold pyRstrip
  rw [dropWhile_eq_self_of_head, List.reverse_reverse]
  intro c hc
  rw [List.head?_reverse] at hc
  exact h c hc

/-- `pyLstrip` is the identity when the first character is not whitespace. -/
theorem pyLstrip_eq_self {l : List Char}
    (h : ∀ c, l.head? = some c → pySpace c = false) : pyLstrip l = l := by
  unfold pyLstrip
  exact dropWhile_eq_self_of_head h

/-- `pyStrip` is the identity when neither end is whitespace. -/
theorem pyStrip_eq_self {l : List Char}
    (h1 : ∀ c, l.head? = some c → pySpace c = false)
    (h2 : ∀ c, l.getLast? = some c → pySpace c = false) : pyStrip l = l := by
  unfold pyStrip
  rw [pyRstrip_eq_self h2, pyLstrip_eq_self h1]

/-- `pyRstripEq` is the identity when the last character is not `'='`. -/
theorem pyRstripEq_eq_self {l : List Char}
    (h : ∀ c, l.getLast? = some c → c ≠ '=') : pyRstripEq l = l := by
  unfold pyRstripEq
  rw [dropWhile_eq_self_of_head, List.reverse_reverse]
  intro c hc
  rw [List.head?_reverse] at hc
  exact beq_eq_false_iff_ne.mpr (h c hc)

/-- `pyStrip` is the identity on all-non-whitespace strings. -/
theorem pyStrip_eq_self_of_all {l : List Char}
    (h : ∀ c ∈ l, pySpace c = false) : pyStrip l = l := by
  refine pyStrip_eq_self (fun c hc => ?_) (fun c hc => ?_)
  · exact h c (List.mem_of_mem_head? (show c ∈ l.head? by rw [hc]; rfl))
  · have hm : c ∈ l.reverse :=
      List.mem_of_mem_head? (show c ∈ l.reverse.head? by rw [List.head?_reverse, hc]; rfl)
    exact h c (List.mem_reverse.mp hm)

/-- The sanitized text never contains a backslash: step 8 of the pipeline
removes every backslash token and the later steps only add spaces and
operator glyphs. -/
theorem sanitizeTextCore_no_bs (l : List Char) : '\\' ∉ sanitizeTextCore l := by
  intro h
  simp only [sanitizeTextCore] at h
  have h2 := mem_pyStrip h
  rcases mem_collapseWS _ h2 with h3 | h3
  · unfold pyReplace at h3
    rcases mem_pyReplaceF _ _ h3 with hr | h4
    · simp at hr
    rcases mem_pyReplaceF _ _ h4 with hr | h5
    · simp at hr
    rcases mem_pyReplaceF _ _ h5 with hr | h6
    · simp at hr
    rcases mem_pyReplaceF _ _ h6 with hr | h7
    · simp at hr
    have h8 := mem_pyRstrip (mem_pyRstripEq (mem_pyStrip h7))
    exact bs_not_mem_dropBSF _ _ h8
  · simp at h3

/-- C8: for every raw text containing a markup fraction token, the output
of `sanitize_text` contains no backslash (fraction/operator rewriting
happens before the catch-all backslash removal, which deletes every
remaining backslash token). -/
theorem c8_no_backslash_in_output (s : String)
    (h : hasSub ['\\', 'f', 'r', 'a', 'c'] s.data = true) :
    '\\' ∉ (sanitize_text (some s)).data := by
  simpa [sanitize_text] using sanitizeTextCore_no_bs s.data

/-- Witness for C8 at the spec's own scenario input. -/
theorem c8_no_backslash_in_output_witness :
    '\\' ∉ (sanitize_text (some "\\frac\x7b1\x7d\x7b2\x7d \\times 4 =")).data :=
  c8_no_backslash_in_output "\\frac\x7b1\x7d\x7b2\x7d \\times 4 =" (by decide)

/-- C4 (amended): step 9 of `sanitize_text` strips trailing whitespace,
then strips ALL trailing `'='` characters (not just one), then strips
whitespace again: appending any number of `'='` to a string whose last
character is neither whitespace nor `'='` leaves step 9's result
unchanged, and `"x =="` sanitizes to `"x"` (both `'='` removed). -/
theorem c4_all_trailing_equals_stripped (l : List Char) (k : Nat)
    (h : ∀ c, l.getLast? = some c → pySpace c = false ∧ c ≠ '=') :
    pyStrip (pyRstripEq (pyRstrip (l ++ List.replicate k '='))) =
      pyStrip (pyRstripEq (pyRstrip l)) ∧
    sanitize_text (some "x ==") = "x" := by
  constructor
  · have hrl : pyRstrip l = l := pyRstrip_eq_self (fun c hc => (h c hc).1)
    have hre : pyRstripEq l = l := pyRstripEq_eq_self (fun c hc => (h c hc).2)
    cases k with
    | zero => simp
    | succ k =>
      have hlast : (l ++ List.replicate (k + 1) '=').getLast? = some '=' := by
        rw [List.replicate_succ', ← List.append_assoc]
        exact List.getLast?_concat _
      have h1 : pyRstrip (l ++ List.replicate (k + 1) '=') = l ++ List.replicate (k + 1) '=' :=
        pyRstrip_eq_self (fun c hc => by
          rw [hlast] at hc
          injection hc with e
          subst e
          rfl)
      have h2 : pyRstripEq (l ++ List.replicate (k + 1) '=') = l := by
        unfold pyRstripEq
        rw [List.reverse_append, List.reverse_replicate]
        rw [dropWhile_app_all l.reverse (fun c hc => by rw [List.eq_of_mem_replicate hc]; rfl)]
        have hhead : ∀ c, l.reverse.head? = some c → (c == '=') = false := by
          intro c hc
          rw [List.head?_reverse] at hc
          exact beq_eq_false_iff_ne.mpr (h c hc).2
        rw [dropWhile_eq_self_of_head hhead, List.reverse_reverse]
      rw [h1, h2, hrl, hre]
  · decide

/-- Witness for C4 at the claim's own example. -/
theorem c4_all_trailing_equals_stripped_witness :
    pyStrip (pyRstripEq (pyRstrip ("x".data ++ List.replicate 2 '='))) =
      pyStrip (pyRstripEq (pyRstrip "x".data)) ∧
    sanitize_text (some "x ==") = "x" :=
  c4_all_trailing_equals_stripped "x".data 2 (by
    intro c hc
    rw [show ("x".data.getLast?) = some 'x' from rfl] at hc
    injection hc with hx
    subst hx
    decide)

/-- C4 counterexample: on `"x =="` the code removes BOTH trailing `'='`
characters, not exactly one (`"x ="` would be the claimed result). -/
theorem c4_counterexample :
    sanitize_text (some "x ==") = "x" ∧ sanitize_text (some "x ==") ≠ "x =" := by
  constructor <;> decide

/-- C5 counterexample: for the input `"-5"` the output is `"- 5"`, whose
operator `'-'` sits at the start of the string with no character (hence
no space) on its left side. -/
theorem c5_counterexample :
    sanitize_text (some "-5") = "- 5" ∧
    opsExactlySpaced (sanitize_text (some "-5")).data = false := by
  constructor <;> decide

/-- C9 counterexample: `sanitize_text` is not idempotent.  On
`"a = =="`, `rstrip('=')` exposes trailing whitespace whose removal
exposes a new trailing `'='` (output `"a ="`); a second pass then strips
that `'='` and yields `"a"`. -/
theorem c9_counterexample :
    sanitize_text (some (sanitize_text (some "a = =="))) ≠ sanitize_text (some "a = ==") := by
  decide

/-- C6 counterexample: the plain numeric string `"10000000000000000"`
(`10^16`) is accepted by the plain-number rule, but `str()` of the
resulting float is `"1e+16"`, which `sanitize_answer` rejects — so
sanitize-str-sanitize is `None`, not `10^16`.  The failure already
begins at `"9999999999999999.9"`: its exact value is below `10^16`, but
it lies in `[10^16 - 1, 10^16)`, rounds to the double `10^16`, and so
also prints scientifically and re-sanitizes to `None`. -/
theorem c6_counterexample :
    sanitize_answer (some "10000000000000000") = some ((10 : Rat) ^ 16) ∧
    pyFloatStr ((10 : Rat) ^ 16) = "1e+16" ∧
    sanitize_answer (some (pyFloatStr ((10 : Rat) ^ 16))) = none ∧
    sanitize_answer (some "9999999999999999.9") = some ((99999999999999999 : Rat) / 10) ∧
    sanitize_answer (some (pyFloatStr ((99999999999999999 : Rat) / 10))) = none := by
  refine ⟨?_, ?_, ?_, ?_, ?_⟩ <;> with_unfolding_all rfl

/-- Unfolding lemma for `sanitize_answer` on a present string. -/
theorem sanitize_answer_mk (L : List Char) :
    sanitize_answer (some (String.mk L)) =
      (match plainMatch ((cleanAns L).filter (fun c => c ≠ ',')) with
       | some v => some v
       | none =>
         match fracMatch (cleanAns L) with
         | some nd => if nd.2 = 0 then none else some ((nd.1 : Rat) / (nd.2 : Rat))
         | none => none) := rfl

/-- The cleaning prefix of `sanitize_answer` is the identity on strings
free of whitespace, `$`, backslash and Unicode minus. -/
theorem cleanAns_eq_self {l : List Char}
    (hsp : ∀ c ∈ l, pySpace c = false) (hdl : '$' ∉ l)
    (hbs : '\\' ∉ l) (hmi : '−' ∉ l) : cleanAns l = l := by
  have h1 : List.filter (fun c => c ≠ '$') l = l :=
    List.filter_eq_self.mpr (fun c hc => by
      simp only [decide_eq_true_eq]
      exact fun e => hdl (e ▸ hc))
  unfold cleanAns
  rw [pyStrip_eq_self_of_all hsp, h1]
  unfold pyReplace
  rw [pyReplaceF_eq_self _ _ hbs]
  exact map_minus_eq_self hmi

/-- On a non-empty all-digit string, the plain-number rule fires and
returns the digit value. -/
theorem plainMatch_all_digits {l : List Char} (hne : l ≠ [])
    (hd : ∀ c ∈ l, pyDigit c = true) : plainMatch l = some ((digitsToNat l : Rat)) := by
  cases l with
  | nil => exact absurd rfl hne
  | cons c t =>
    have hc := hd c (List.mem_cons_self c t)
    have hcm : ¬ c = '-' := pyDigit_ne hc (by decide)
    have hcp : ¬ c = '+' := pyDigit_ne hc (by decide)
    have hsplit : signSplitR (c :: t) = (1, c :: t) := by
      simp only [signSplitR]
      rw [if_neg hcm, if_neg hcp]
    have htake : (c :: t).takeWhile pyDigit = c :: t := List.takeWhile_eq_self_iff.mpr hd
    have hdrop : (c :: t).dropWhile pyDigit = [] := List.dropWhile_eq_nil_iff.mpr hd
    unfold plainMatch
    rw [hsplit]
    show plainTail 1 (c :: t) = _
    unfold plainTail
    rw [htake, hdrop, if_neg (by simp)]
    unfold plainAfterInt
    rw [if_pos rfl, one_mul]

/-- Value of a string of `n` nines. -/
theorem digitsToNat_replicate9_aux (n : Nat) :
    ∀ acc, (List.replicate n '9').foldl (fun acc c => 10 * acc + (c.toNat - 48)) acc + 1
      = (acc + 1) * 10 ^ n := by
  induction n with
  | zero => intro acc; simp
  | succ n ih =>
    intro acc
    rw [List.replicate_succ, List.foldl_cons]
    rw [show (10 * acc + ('9'.toNat - 48)) = 10 * acc + 9 from rfl]
    rw [ih (10 * acc + 9)]
    ring

/-- A string of `n` nines has value `10 ^ n - 1`. -/
theorem digitsToNat_replicate9 (n : Nat) :
    digitsToNat (List.replicate n '9') = 10 ^ n - 1 := by
  have h := digitsToNat_replicate9_aux n 0
  have hp : 1 ≤ 10 ^ n := Nat.one_le_pow n 10 (by omega)
  unfold digitsToNat
  omega

/-- C7 counterexample: a 400-digit string of nines passes the plain-number
rule, but its value exceeds the IEEE-double overflow threshold, so the
`float()` the code returns is infinite, not finite. -/
theorem c7_counterexample :
    sanitize_answer (some (String.mk (List.replicate 400 '9'))) = some ((10 : Rat) ^ 400 - 1) ∧
    pyFloatIsFinite ((10 : Rat) ^ 400 - 1) = false := by
  constructor
  · have hd : ∀ c ∈ List.replicate 400 '9', pyDigit c = true := by
      intro c hc
      rw [List.eq_of_mem_replicate hc]
      rfl
    have hcl : cleanAns (List.replicate 400 '9') = List.replicate 400 '9' := by
      refine cleanAns_eq_self (fun c hc => ?_) (fun hc => ?_) (fun hc => ?_) (fun hc => ?_)
      · rw [List.eq_of_mem_replicate hc]; rfl
      · exact absurd (List.eq_of_mem_replicate hc) (by decide)
      · exact absurd (List.eq_of_mem_replicate hc) (by decide)
      · exact absurd (List.eq_of_mem_replicate hc) (by decide)
    have hfl : (List.replicate 400 '9').filter (fun c => c ≠ ',') = List.replicate 400 '9' :=
      List.filter_eq_self.mpr (fun c hc => by rw [List.eq_of_mem_replicate hc]; decide)
    rw [sanitize_answer_mk, hcl, hfl]
    rw [plainMatch_all_digits (by simp) hd]
    show some ((digitsToNat (List.replicate 400 '9') : Rat)) = some ((10 : Rat) ^ 400 - 1)
    rw [digitsToNat_replicate9]
    have hcast : ((10 ^ 400 - 1 : Nat) : Rat) = (10 : Rat) ^ 400 - 1 := by
      have h1 : (1 : Nat) ≤ 10 ^ 400 := Nat.one_le_pow 400 10 (by omega)
      push_cast [Nat.cast_sub h1]
      ring
    rw [hcast]
  · unfold pyFloatIsFinite
    rw [decide_eq_false_iff_not]
    push_neg
    rw [abs_of_nonneg (by norm_num)]
    norm_num

/-- C10: `sanitize_answer` removes every comma, wherever it sits, before
applying the plain-number rule (comma placement is never validated), and
`"1,2,3"` parses to `123.0`. -/
theorem c10_commas_removed_before_plain :
    (∀ xs ys : List Char,
       plainMatch ((xs ++ ',' :: ys).filter (fun c => c ≠ ',')) =
         plainMatch ((xs ++ ys).filter (fun c => c ≠ ','))) ∧
    sanitize_answer (some "1,2,3") = some 123 := by
  constructor
  · intro xs ys
    simp [List.filter_append, List.filter_cons]
  · with_unfolding_all rfl

/-- Every character produced by `natDigitsAux` is a digit. -/
theorem natDigitsAux_digits : ∀ (f n : Nat), ∀ c ∈ natDigitsAux f n, pyDigit c = true := by
  intro f
  induction f with
  | zero => intro n c hc; simp [natDigitsAux] at hc
  | succ f ih =>
    intro n c hc
    cases n with
    | zero => simp [natDigitsAux] at hc
    | succ m =>
      simp only [natDigitsAux] at hc
      rcases List.mem_append.mp hc with h1 | h1
      · exact ih _ c h1
      · have hr : (m + 1) % 10 < 10 := Nat.mod_lt _ (by omega)
        have hc2 : c = Char.ofNat (48 + (m + 1) % 10) := by simpa using h1
        subst hc2
        set r := (m + 1) % 10 with hrdef
        interval_cases r <;> decide

/-- Appending one digit multiplies the value by ten and adds it. -/
theorem digitsToNat_concat (xs : List Char) (c : Char) :
    digitsToNat (xs ++ [c]) = 10 * digitsToNat xs + (c.toNat - 48) := by
  unfold digitsToNat
  rw [List.foldl_append]
  rfl

/-- `natDigitsAux` renders the decimal value it was given. -/
theorem digitsToNat_natDigitsAux : ∀ (f n : Nat), n ≤ f → digitsToNat (natDigitsAux f n) = n := by
  intro f
  induction f with
  | zero =>
    intro n hn
    interval_cases n
    rfl
  | succ f ih =>
    intro n hn
    cases n with
    | zero => rfl
    | succ m =>
      simp only [natDigitsAux]
      rw [digitsToNat_concat]
      have hdiv : (m + 1) / 10 ≤ f := by
        have h10 : (m + 1) / 10 < m + 1 := Nat.div_lt_self (by omega) (by omega)
        omega
      rw [ih _ hdiv]
      have hr : (m + 1) % 10 < 10 := Nat.mod_lt _ (by omega)
      have hchar : (Char.ofNat (48 + (m + 1) % 10)).toNat - 48 = (m + 1) % 10 := by
        set r := (m + 1) % 10 with hrdef
        interval_cases r <;> decide
      rw [hchar]
      omega

/-- `natDigits` is never empty. -/
theorem natDigits_ne_nil (n : Nat) : natDigits n ≠ [] := by
  unfold natDigits
  split
  · simp
  · next hn =>
    cases n with
    | zero => simp at hn
    | succ m =>
      simp only [natDigitsAux]
      exact List.append_ne_nil_of_right_ne_nil _ (by simp)

/-- Every character of `natDigits n` is a digit. -/
theorem natDigits_digits (n : Nat) : ∀ c ∈ natDigits n, pyDigit c = true := by
  unfold natDigits
  split
  · intro c hc
    simp at hc
    subst hc
    decide
  · exact natDigitsAux_digits n n

/-- Round trip: parsing the rendered digits of `n` gives back `n`. -/
theorem digitsToNat_natDigits (n : Nat) : digitsToNat (natDigits n) = n := by
  unfold natDigits
  split
  · next hn => subst hn; decide
  · exact digitsToNat_natDigitsAux n n le_rfl

/-- Shape of the optional-sign split. -/
theorem signSplitR_shape (l : List Char) :
    signSplitR l = (1, l) ∨
      (∃ t, (l = '-' :: t ∧ signSplitR l = (-1, t)) ∨ (l = '+' :: t ∧ signSplitR l = (1, t))) := by
  cases l with
  | nil => exact Or.inl rfl
  | cons c t =>
    by_cases hm : c = '-'
    · subst hm
      exact Or.inr ⟨t, Or.inl ⟨rfl, by simp [signSplitR]⟩⟩
    · by_cases hp : c = '+'
      · subst hp
        exact Or.inr ⟨t, Or.inr ⟨rfl, by simp [signSplitR]⟩⟩
      · exact Or.inl (by simp [signSplitR, hm, hp])

/-- Every character of a string accepted by `plainTail` is a digit or the
decimal point. -/
theorem plainTail_chars {rest : List Char} {sgn v : Rat}
    (h : plainTail sgn rest = some v) :
    ∀ c ∈ rest, c = '.' ∨ pyDigit c = true := by
  intro c hc
  unfold plainTail at h
  split at h
  · simp at h
  · rcases List.mem_append.mp
        (by rw [List.takeWhile_append_dropWhile (p := pyDigit) (l := rest)]; exact hc :
          c ∈ rest.takeWhile pyDigit ++ rest.dropWhile pyDigit) with h1 | h1
    · exact Or.inr (List.mem_takeWhile_imp h1)
    · rcases hdw : rest.dropWhile pyDigit with _ | ⟨d, r2⟩
      · rw [hdw] at h1; simp at h1
      · rw [hdw] at h h1
        unfold plainAfterInt at h
        split at h
        · next he => simp at he
        · split at h
          · next hhd =>
            have hd : d = '.' := by
              rw [show ((d :: r2).head?) = some d from rfl] at hhd
              injection hhd
            subst hd
            rcases List.mem_cons.mp h1 with h2 | h2
            · exact Or.inl h2
            · simp only [List.tail_cons] at h
              split at h
              · simp at h
              · next hcond =>
                push_neg at hcond
                have hall := List.dropWhile_eq_nil_iff.mp hcond.2
                exact Or.inr (hall c h2)
          · simp at h

/-- Every character of a string accepted by the plain-number rule is a
sign, a digit, or the decimal point. -/
theorem plainMatch_chars {l : List Char} {v : Rat} (h : plainMatch l = some v) :
    ∀ c ∈ l, c = '-' ∨ c = '+' ∨ c = '.' ∨ pyDigit c = true := by
  unfold plainMatch at h
  rcases signSplitR_shape l with hs | ⟨t, ⟨heq, hs⟩ | ⟨heq, hs⟩⟩ <;> rw [hs] at h
  · intro c hc
    have := plainTail_chars h c hc
    tauto
  · intro c hc
    rw [heq] at hc
    rcases List.mem_cons.mp hc with h2 | h2
    · exact Or.inl h2
    · have := plainTail_chars h c h2
      tauto
  · intro c hc
    rw [heq] at hc
    rcases List.mem_cons.mp hc with h2 | h2
    · exact Or.inr (Or.inl h2)
    · have := plainTail_chars h c h2
      tauto

/-- The last element is a member. -/
theorem getLast?_mem {l : List Char} {c : Char} (h : l.getLast? = some c) : c ∈ l := by
  have hm : c ∈ l.reverse :=
    List.mem_of_mem_head? (show c ∈ l.reverse.head? by rw [List.head?_reverse, h]; rfl)
  exact List.mem_reverse.mp hm

/-- Whitespace characters are not digits. -/
theorem pySpace_not_digit {c : Char} (h : pySpace c = true) : pyDigit c = false := by
  have h32 := pySpace_toNat_le h
  cases hd : pyDigit c
  · rfl
  · have := (pyDigit_bounds hd).1
    omega

/-- The last element of an appended pair with non-empty right part. -/
theorem getLast?_append_right {l1 l2 : List Char} (h : l2 ≠ []) :
    (l1 ++ l2).getLast? = l2.getLast? := by
  obtain ⟨x, xs, hx⟩ := List.exists_cons_of_ne_nil (show l2.reverse ≠ [] by simpa using h)
  rw [List.getLast?_eq_head?_reverse, List.reverse_append, hx, List.getLast?_eq_head?_reverse, hx]
  rfl

/-- C3: for input of the form optional minus, integer digits, whitespace,
slash, whitespace, integer digits, `sanitize_answer` returns the exact
numerator-over-denominator value when the denominator is non-zero, and
`None` when it is zero.  The fraction pattern is applied to the
pre-comma-strip string (here comma-free). -/
theorem c3_fraction_rule (neg : Bool) (a b : Nat) (w1 w2 : List Char)
    (hw1 : ∀ c ∈ w1, pySpace c = true) (hw2 : ∀ c ∈ w2, pySpace c = true) :
    sanitize_answer (some (String.mk
      ((if neg then ['-'] else []) ++ natDigits a ++ w1 ++ '/' :: (w2 ++ natDigits b)))) =
      if b = 0 then none
      else some ((if neg then -(a : Rat) else (a : Rat)) / (b : Rat)) := by
  obtain ⟨da, dsa, hdsa⟩ := List.exists_cons_of_ne_nil (natDigits_ne_nil a)
  obtain ⟨db, dsb, hdsb⟩ := List.exists_cons_of_ne_nil (natDigits_ne_nil b)
  set M : List Char := natDigits a ++ w1 ++ '/' :: (w2 ++ natDigits b) with hM
  set L : List Char := (if neg then ['-'] else []) ++ M with hLdef
  have hchar : ∀ c ∈ L, c = '-' ∨ c = '/' ∨ pyDigit c = true ∨ pySpace c = true := by
    intro c hc
    rw [hLdef, hM] at hc
    simp only [List.mem_append, List.mem_cons] at hc
    rcases hc with h1 | ((h1 | h1) | (h1 | (h1 | h1)))
    · left
      cases neg with
      | true => simpa using h1
      | false => simp at h1
    · exact Or.inr (Or.inr (Or.inl (natDigits_digits a c h1)))
    · exact Or.inr (Or.inr (Or.inr (hw1 c h1)))
    · exact Or.inr (Or.inl h1)
    · exact Or.inr (Or.inr (Or.inr (hw2 c h1)))
    · exact Or.inr (Or.inr (Or.inl (natDigits_digits b c h1)))
  have hd : '$' ∉ L := fun hm => by
    rcases hchar _ hm with h | h | h | h <;> exact absurd h (by decide)
  have hbsl : '\\' ∉ L := fun hm => by
    rcases hchar _ hm with h | h | h | h <;> exact absurd h (by decide)
  have hmi : '−' ∉ L := fun hm => by
    rcases hchar _ hm with h | h | h | h <;> exact absurd h (by decide)
  have hcm : ',' ∉ L := fun hm => by
    rcases hchar _ hm with h | h | h | h <;> exact absurd h (by decide)
  have hhead : ∀ c, L.head? = some c → pySpace c = false := by
    intro c hc
    rw [hLdef] at hc
    cases neg with
    | true =>
      rw [if_pos rfl, List.cons_append] at hc
      injection hc with he
      subst he
      rfl
    | false =>
      rw [if_neg (by simp), List.nil_append, hM, hdsa, List.cons_append, List.cons_append] at hc
      injection hc with he
      subst he
      exact pyDigit_not_space (natDigits_digits a da (by rw [hdsa]; exact List.mem_cons_self _ _))
  have hlastNb : ∀ c, L.getLast? = some c → c ∈ natDigits b := by
    intro c hc
    rw [hLdef, hM] at hc
    rw [getLast?_append_right
      (List.append_ne_nil_of_right_ne_nil _ (by simp))] at hc
    rw [getLast?_append_right (by simp : ('/' :: (w2 ++ natDigits b)) ≠ [])] at hc
    rw [show ('/' :: (w2 ++ natDigits b)) = ['/'] ++ (w2 ++ natDigits b) from rfl] at hc
    rw [getLast?_append_right
      (List.append_ne_nil_of_right_ne_nil _ (natDigits_ne_nil b))] at hc
    rw [getLast?_append_right (natDigits_ne_nil b)] at hc
    exact getLast?_mem hc
  have hlast : ∀ c, L.getLast? = some c → pySpace c = false :=
    fun c hc => pyDigit_not_space (natDigits_digits b c (hlastNb c hc))
  have hclean : cleanAns L = L := by
    have hfil : List.filter (fun c => c ≠ '$') L = L :=
      List.filter_eq_self.mpr (fun c hc => by
        simp only [decide_eq_true_eq]
        exact fun e => hd (e ▸ hc))
    unfold cleanAns
    rw [pyStrip_eq_self hhead hlast, hfil]
    unfold pyReplace
    rw [pyReplaceF_eq_self _ _ hbsl]
    exact map_minus_eq_self hmi
  have hfilc : List.filter (fun c => c ≠ ',') L = L :=
    List.filter_eq_self.mpr (fun c hc => by
      simp only [decide_eq_true_eq]
      exact fun e => hcm (e ▸ hc))
  have hpm : plainMatch L = none := by
    cases hp : plainMatch L with
    | none => rfl
    | some v =>
      have hs : '/' ∈ L := by
        rw [hLdef, hM]
        simp
      rcases plainMatch_chars hp '/' hs with h | h | h | h <;> exact absurd h (by decide)
  have hns : negSplit L = (neg, M) := by
    rw [hLdef]
    cases neg with
    | true =>
      rw [if_pos rfl, List.cons_append, List.nil_append]
      simp [negSplit]
    | false =>
      rw [if_neg (by simp), List.nil_append, hM, hdsa, List.cons_append, List.cons_append]
      have hda : ¬ da = '-' :=
        pyDigit_ne (natDigits_digits a da (by rw [hdsa]; exact List.mem_cons_self _ _)) (by decide)
      simp [negSplit, hda]
  have htakeM : M.takeWhile pyDigit = natDigits a := by
    rw [hM, List.append_assoc]
    rw [takeWhile_app_all _ (natDigits_digits a)]
    rw [takeWhile_eq_nil_of_head, List.append_nil]
    intro c hc
    cases w1 with
    | nil =>
      rw [List.nil_append] at hc
      injection hc with he
      subst he
      rfl
    | cons x xs =>
      rw [List.cons_append] at hc
      injection hc with he
      subst he
      exact pySpace_not_digit (hw1 x (List.mem_cons_self _ _))
  have hdropM : M.dropWhile pyDigit = w1 ++ '/' :: (w2 ++ natDigits b) := by
    rw [hM, List.append_assoc]
    rw [dropWhile_app_all _ (natDigits_digits a)]
    rw [dropWhile_eq_self_of_head]
    intro c hc
    cases w1 with
    | nil =>
      rw [List.nil_append] at hc
      injection hc with he
      subst he
      rfl
    | cons x xs =>
      rw [List.cons_append] at hc
      injection hc with he
      subst he
      exact pySpace_not_digit (hw1 x (List.mem_cons_self _ _))
  have hdropsp : (w1 ++ '/' :: (w2 ++ natDigits b)).dropWhile pySpace
      = '/' :: (w2 ++ natDigits b) := by
    rw [dropWhile_app_all _ hw1]
    rw [dropWhile_eq_self_of_head]
    intro c hc
    injection hc with he
    subst he
    rfl
  have hdropsp2 : (w2 ++ natDigits b).dropWhile pySpace = natDigits b := by
    rw [dropWhile_app_all _ hw2]
    rw [dropWhile_eq_self_of_head]
    intro c hc
    rw [hdsb] at hc
    injection hc with he
    subst he
    exact pyDigit_not_space (natDigits_digits b db (by rw [hdsb]; exact List.mem_cons_self _ _))
  have hfm : fracMatch L = some ((if neg then -(a : Int) else (a : Int)), b) := by
    unfold fracMatch
    rw [hns]
    show fracTail neg M = _
    unfold fracTail
    rw [htakeM, hdropM, hdropsp]
    rw [if_neg (by rw [hdsa]; simp)]
    rw [if_pos (show ('/' :: (w2 ++ natDigits b)).head? = some '/' from rfl)]
    show fracAfterSlash neg (digitsToNat (natDigits a)) (w2 ++ natDigits b) = _
    unfold fracAfterSlash
    rw [hdropsp2]
    simp only [List.takeWhile_eq_self_iff.mpr (natDigits_digits b),
      List.dropWhile_eq_nil_iff.mpr (natDigits_digits b)]
    rw [if_neg (by
      push_neg
      exact ⟨natDigits_ne_nil b, rfl⟩)]
    rw [digitsToNat_natDigits, digitsToNat_natDigits]
  have hLs : (if neg then ['-'] else []) ++ natDigits a ++ w1 ++ '/' :: (w2 ++ natDigits b)
      = L := by
    rw [hLdef, hM]
    simp [List.append_assoc]
  rw [sanitize_answer_mk, hLs, hclean, hfilc, hpm]
  show (match fracMatch L with
    | some nd => if nd.2 = 0 then none else some ((nd.1 : Rat) / (nd.2 : Rat))
    | none => none) = _
  rw [hfm]
  have hred : (match some ((if neg = true then -(a : Int) else (a : Int)), b) with
      | some nd => if nd.2 = 0 then none else some ((nd.1 : Rat) / (nd.2 : Rat))
      | none => (none : Option Rat)) =
      if b = 0 then none
      else some (((if neg = true then -(a : Int) else (a : Int)) : (Int)) / (b : Nat) : Rat) := rfl
  rw [hred]
  by_cases hb : b = 0
  · rw [if_pos hb, if_pos hb]
  · rw [if_neg hb, if_neg hb]
    cases neg with
    | true => push_cast; ring_nf
    | false => push_cast; ring_nf

/-- Witness for C3 at `-7 / 2`. -/
theorem c3_fraction_rule_witness :
    sanitize_answer (some (String.mk
      ((if true then ['-'] else []) ++ natDigits 7 ++ [' '] ++ '/' :: ([] ++ natDigits 2)))) =
      some (-7 / 2 : Rat) := by
  have h := c3_fraction_rule true 7 2 [' '] [] (by decide) (by decide)
  rw [h]
  norm_num

/-- Membership in an operation-major concatenation comes from one
operation's block. -/
theorem mem_foldr_append {α β : Type} {f : α → List β} {v : β} :
    ∀ ops : List α, v ∈ ops.foldr (fun op acc => f op ++ acc) [] → ∃ op ∈ ops, v ∈ f op := by
  intro ops
  induction ops with
  | nil => intro h; simp at h
  | cons o t ih =>
    intro h
    rw [List.foldr_cons] at h
    rcases List.mem_append.mp h with h1 | h1
    · exact ⟨o, List.mem_cons_self _ _, h1⟩
    · obtain ⟨op, hop, hv⟩ := ih h1
      exact ⟨op, List.mem_cons_of_mem _ hop, hv⟩

/-- C1 counterexample: in Remote mode, a reply whose items carry a `null`
`Answer` is passed through to the output unvalidated — records with a
null answer are emitted, contradicting the claimed both-modes invariant. -/
theorem c1_remote_null_answer_passes_through :
    generate_questions true
        (fun _ => .ok "\x7b\"Questions\": [\x7b\"Answer\": null\x7d]\x7d")
        (fun _ _ => .error PyErr.typeErr) 1
      = .ok (JVal.obj [("Questions", JVal.arr
          (List.replicate 4 (JVal.obj [("Answer", JVal.null)])))]) ∧
    hasNullAnswer (JVal.obj [("Questions", JVal.arr
        (List.replicate 4 (JVal.obj [("Answer", JVal.null)])))]) = true := by
  exact ⟨rfl, rfl⟩

/-- C1 (amended): in Local mode the invariant does hold — every record in
the output of `generate_questions` carries a numeric `Answer`, because
items with an unparseable answer are dropped before a record is built.
(In Remote mode items are passed through unvalidated.) -/
theorem c1_local_mode_answers_numeric
    (remoteCall : String → Except PyErr String)
    (localGen : String → Nat → Except PyErr (Option String × Option String))
    (per_op : Nat) (l : List JVal)
    (h : generate_questions false remoteCall localGen per_op
      = .ok (JVal.obj [("Questions", JVal.arr l)])) :
    ∀ v ∈ l, answerIsNum v = true := by
  intro v hv
  unfold generate_questions at h
  rw [if_neg (by simp)] at h
  simp only [Except.ok.injEq, JVal.obj.injEq, List.cons.injEq, Prod.mk.injEq, JVal.arr.injEq,
    and_true, true_and] at h
  rw [← h] at hv
  obtain ⟨op, _, hvo⟩ := mem_foldr_append operations hv
  obtain ⟨i, _, hvi⟩ := List.mem_filterMap.mp hvo
  unfold localItem at hvi
  rcases hg : localGen op i with e | pair
  · rw [hg] at hvi; simp at hvi
  · rw [hg] at hvi
    have hvi2 : (match sanitize_answer pair.2 with
      | none => none
      | some ans => some (JVal.obj [("Text", JVal.str (sanitize_text pair.1)),
          ("Operation", JVal.str op), ("status", JVal.str "Available"),
          ("Answer", JVal.num ans)])) = some v := hvi
    rcases hans : sanitize_answer pair.2 with _ | ans
    · rw [hans] at hvi2; simp at hvi2
    · rw [hans] at hvi2
      have hveq : JVal.obj [("Text", JVal.str (sanitize_text pair.1)),
          ("Operation", JVal.str op), ("status", JVal.str "Available"),
          ("Answer", JVal.num ans)] = v := Option.some.inj hvi2
      rw [← hveq]
      rfl

/-- Witness for C1's amended Local-mode invariant. -/
theorem c1_local_mode_answers_numeric_witness :
    answerIsNum (JVal.obj [("Text", JVal.str "12 + 7"), ("Operation", JVal.str "Addition"),
      ("status", JVal.str "Available"), ("Answer", JVal.num 19)]) = true :=
  c1_local_mode_answers_numeric (fun _ => .error PyErr.typeErr)
    (fun _ _ => .ok (some "12+7 =", some "19")) 1
    ([JVal.obj [("Text", JVal.str "12 + 7"), ("Operation", JVal.str "Addition"),
        ("status", JVal.str "Available"), ("Answer", JVal.num 19)],
      JVal.obj [("Text", JVal.str "12 + 7"), ("Operation", JVal.str "Substraction"),
        ("status", JVal.str "Available"), ("Answer", JVal.num 19)],
      JVal.obj [("Text", JVal.str "12 + 7"), ("Operation", JVal.str "Multiplication"),
        ("status", JVal.str "Available"), ("Answer", JVal.num 19)],
      JVal.obj [("Text", JVal.str "12 + 7"), ("Operation", JVal.str "Division"),
        ("status", JVal.str "Available"), ("Answer", JVal.num 19)]])
    (by with_unfolding_all rfl) _ (List.mem_cons_self _ _)

/-- C2 counterexample: an exception raised by the call itself (before the
`try` block) does NOT yield an empty list — it propagates out of
`fetch_questions_openai` and aborts the whole run. -/
theorem c2_counterexample :
    fetch_questions_openai (.error PyErr.typeErr) = .error PyErr.typeErr ∧
    generate_questions true (fun _ => .error PyErr.typeErr) (fun _ _ => .error PyErr.typeErr) 5
      = .error PyErr.typeErr ∧
    (Except.error PyErr.typeErr : Except PyErr JVal) ≠ .ok (JVal.arr []) := by
  refine ⟨rfl, rfl, by simp⟩

/-- C2 (amended): a malformed-JSON reply (or any failure inside the `try`)
yields an empty list for that operation and is non-fatal — if every call
returns unparseable content the run completes with an empty output — but
an exception from the call itself propagates unchanged. -/
theorem c2_parse_failure_yields_empty_nonfatal :
    (∀ content : String, jsonLoads content = none →
        fetch_questions_openai (.ok content) = .ok (JVal.arr [])) ∧
    (∀ e : PyErr, fetch_questions_openai (.error e) = .error e) ∧
    (∀ (remoteCall : String → Except PyErr String)
        (localGen : String → Nat → Except PyErr (Option String × Option String)) (per_op : Nat),
      (∀ op, ∃ c, remoteCall op = .ok c ∧ jsonLoads c = none) →
      generate_questions true remoteCall localGen per_op
        = .ok (JVal.obj [("Questions", JVal.arr [])])) := by
  have hfetchnone : ∀ content : String, jsonLoads content = none →
      fetch_questions_openai (.ok content) = .ok (JVal.arr []) := by
    intro content h
    have hun : fetch_questions_openai (.ok content) =
        (match jsonLoads content with
         | none => Except.ok (JVal.arr [])
         | some (JVal.obj fields) => Except.ok (dictGet fields "Questions" (JVal.arr []))
         | some _ => Except.ok (JVal.arr [])) := rfl
    rw [hun, h]
  refine ⟨hfetchnone, fun e => rfl, ?_⟩
  intro rc lg n h
  have hfetch : ∀ op, fetch_questions_openai (rc op) = .ok (JVal.arr []) := by
    intro op
    obtain ⟨c, hc, hn⟩ := h op
    rw [hc]
    exact hfetchnone c hn
  have hloop : ∀ (ops : List String) (acc : List JVal), remoteLoop rc ops acc = .ok acc := by
    intro ops
    induction ops with
    | nil => intro acc; rfl
    | cons o t ih =>
      intro acc
      unfold remoteLoop
      rw [hfetch o]
      show (match pyExtend acc (JVal.arr []) with
        | Except.error e => Except.error e
        | Except.ok acc2 => remoteLoop rc t acc2) = Except.ok acc
      rw [show pyExtend acc (JVal.arr []) = Except.ok (acc ++ []) from rfl, List.append_nil]
      exact ih acc
  unfold generate_questions
  rw [if_pos rfl, hloop operations []]

/-- Witness for C2's amendment at the unparseable reply `"oops"`. -/
theorem c2_parse_failure_yields_empty_nonfatal_witness :
    fetch_questions_openai (.ok "oops") = .ok (JVal.arr []) ∧
    generate_questions true (fun _ => .ok "oops") (fun _ _ => .error PyErr.typeErr) 5
      = .ok (JVal.obj [("Questions", JVal.arr [])]) :=
  ⟨c2_parse_failure_yields_empty_nonfatal.1 "oops" (by rfl),
   c2_parse_failure_yields_empty_nonfatal.2.2 _ _ 5 (fun op => ⟨"oops", rfl, by rfl⟩)⟩

/-- Unfolding lemma for `sanitize_answer` on a present string. -/
theorem sanitize_answer_some (s : String) :
    sanitize_answer (some s) =
      (match plainMatch ((cleanAns s.data).filter (fun c => c ≠ ',')) with
       | some v => some v
       | none =>
         match fracMatch (cleanAns s.data) with
         | some nd => if nd.2 = 0 then none else some ((nd.1 : Rat) / (nd.2 : Rat))
         | none => none) := rfl

/-- Digit-string values are bounded by the power of ten of the length. -/
theorem digitsToNat_lt_aux :
    ∀ (l : List Char), (∀ c ∈ l, pyDigit c = true) →
      ∀ acc, l.foldl (fun acc c => 10 * acc + (c.toNat - 48)) acc < (acc + 1) * 10 ^ l.length := by
  intro l
  induction l with
  | nil => intro _ acc; simp
  | cons c t ih =>
    intro h acc
    rw [List.foldl_cons, List.length_cons]
    have hc := pyDigit_bounds (h c (List.mem_cons_self _ _))
    have ht := ih (fun x hx => h x (List.mem_cons_of_mem _ hx)) (10 * acc + (c.toNat - 48))
    have hle : (10 * acc + (c.toNat - 48) + 1) * 10 ^ t.length ≤ (acc + 1) * 10 ^ (t.length + 1) := by
      have hstep : 10 * acc + (c.toNat - 48) + 1 ≤ (acc + 1) * 10 := by omega
      calc (10 * acc + (c.toNat - 48) + 1) * 10 ^ t.length
          ≤ ((acc + 1) * 10) * 10 ^ t.length := Nat.mul_le_mul_right _ hstep
        _ = (acc + 1) * 10 ^ (t.length + 1) := by ring
    omega

/-- A string of `n` digits has value below `10 ^ n`. -/
theorem digitsToNat_lt (l : List Char) (h : ∀ c ∈ l, pyDigit c = true) :
    digitsToNat l < 10 ^ l.length := by
  have hx := digitsToNat_lt_aux l h 0
  unfold digitsToNat
  simpa using hx

/-- Inversion for `plainTail`: the accepted value is the signed digit
value, possibly with a digit-block fraction. -/
theorem plainTail_inv {sgn : Rat} {rest : List Char} {v : Rat}
    (h : plainTail sgn rest = some v) :
    v = sgn * (digitsToNat (rest.takeWhile pyDigit) : Rat) ∨
    (∃ d2 : List Char, (∀ c ∈ d2, pyDigit c = true) ∧
      v = sgn * ((digitsToNat (rest.takeWhile pyDigit) : Rat)
        + (digitsToNat d2 : Rat) / 10 ^ d2.length)) := by
  unfold plainTail at h
  split at h
  · simp at h
  · unfold plainAfterInt at h
    split at h
    · exact Or.inl (Option.some.inj h).symm
    · split at h
      · split at h
        · simp at h
        · refine Or.inr ⟨((rest.dropWhile pyDigit).tail).takeWhile pyDigit,
            fun c hc => List.mem_takeWhile_imp hc, (Option.some.inj h).symm⟩
      · simp at h

/-- The value accepted by `plainTail` with a unit sign is below
`10 ^ length + 1`. -/
theorem plainTail_abs_lt {sgn : Rat} {rest : List Char} {v : Rat}
    (hsgn : sgn = 1 ∨ sgn = -1) (h : plainTail sgn rest = some v) :
    |v| < 10 ^ rest.length + 1 := by
  have hd1 : ∀ c ∈ rest.takeWhile pyDigit, pyDigit c = true :=
    fun c hc => List.mem_takeWhile_imp hc
  have hd1len : (rest.takeWhile pyDigit).length ≤ rest.length :=
    (List.takeWhile_sublist _).length_le
  have hA : (digitsToNat (rest.takeWhile pyDigit) : Rat) < 10 ^ rest.length := by
    have h1 := digitsToNat_lt _ hd1
    have h2 : (digitsToNat (rest.takeWhile pyDigit) : Rat)
        < 10 ^ (rest.takeWhile pyDigit).length := by exact_mod_cast h1
    have h3 : (10 : Rat) ^ (rest.takeWhile pyDigit).length ≤ 10 ^ rest.length :=
      pow_le_pow_right (by norm_num) hd1len
    linarith
  have hA0 : (0 : Rat) ≤ (digitsToNat (rest.takeWhile pyDigit) : Rat) := by positivity
  rcases plainTail_inv h with hv | ⟨d2, hd2, hv⟩
  · subst hv
    rcases hsgn with rfl | rfl
    · rw [one_mul, abs_of_nonneg hA0]
      linarith
    · rw [neg_one_mul, abs_neg, abs_of_nonneg hA0]
      linarith
  · subst hv
    have hB : (digitsToNat d2 : Rat) / 10 ^ d2.length < 1 := by
      rw [div_lt_one (by positivity)]
      exact_mod_cast digitsToNat_lt d2 hd2
    have hB0 : (0 : Rat) ≤ (digitsToNat d2 : Rat) / 10 ^ d2.length := by positivity
    rcases hsgn with rfl | rfl
    · rw [one_mul, abs_of_nonneg (by positivity)]
      linarith
    · rw [neg_one_mul, abs_neg, abs_of_nonneg (by positivity)]
      linarith

/-- The value accepted by the plain-number rule is below
`10 ^ length + 1`. -/
theorem plainMatch_abs_lt {l : List Char} {v : Rat} (h : plainMatch l = some v) :
    |v| < 10 ^ l.length + 1 := by
  unfold plainMatch at h
  rcases signSplitR_shape l with hs | ⟨t, ⟨heq, hs⟩ | ⟨heq, hs⟩⟩ <;> rw [hs] at h
  · exact plainTail_abs_lt (Or.inl rfl) h
  · have hb := plainTail_abs_lt (Or.inr rfl) h
    have hlen : t.length ≤ l.length := by rw [heq]; simp
    have : (10 : Rat) ^ t.length ≤ 10 ^ l.length := pow_le_pow_right (by norm_num) hlen
    linarith
  · have hb := plainTail_abs_lt (Or.inl rfl) h
    have hlen : t.length ≤ l.length := by rw [heq]; simp
    have : (10 : Rat) ^ t.length ≤ 10 ^ l.length := pow_le_pow_right (by norm_num) hlen
    linarith

/-- Shape of the optional-minus split. -/
theorem negSplit_shape (l : List Char) :
    negSplit l = (false, l) ∨ ∃ t, l = '-' :: t ∧ negSplit l = (true, t) := by
  cases l with
  | nil => exact Or.inl rfl
  | cons c t =>
    by_cases hm : c = '-'
    · subst hm
      exact Or.inr ⟨t, rfl, by simp [negSplit]⟩
    · exact Or.inl (by simp [negSplit, hm])

/-- Inversion for `fracTail`: the numerator's magnitude is the value of
the leading digit block. -/
theorem fracTail_inv {neg : Bool} {rest : List Char} {nd : Int × Nat}
    (h : fracTail neg rest = some nd) :
    nd.1.natAbs = digitsToNat (rest.takeWhile pyDigit) := by
  unfold fracTail at h
  split at h
  · simp at h
  · split at h
    · unfold fracAfterSlash at h
      split at h
      · simp at h
      · have hnd := (Option.some.inj h).symm
        rw [hnd]
        cases neg with
        | true => simp
        | false => simp
    · simp at h

/-- The numerator captured by the fraction rule is below `10 ^ length`. -/
theorem fracMatch_abs_lt {l : List Char} {nd : Int × Nat} (h : fracMatch l = some nd) :
    (nd.1.natAbs : Rat) < 10 ^ l.length := by
  unfold fracMatch at h
  have main : ∀ (neg : Bool) (rest : List Char), rest.length ≤ l.length →
      fracTail neg rest = some nd → (nd.1.natAbs : Rat) < 10 ^ l.length := by
    intro neg rest hlen hft
    rw [fracTail_inv hft]
    have hd1 : ∀ c ∈ rest.takeWhile pyDigit, pyDigit c = true :=
      fun c hc => List.mem_takeWhile_imp hc
    have h1 : (digitsToNat (rest.takeWhile pyDigit) : Rat)
        < 10 ^ (rest.takeWhile pyDigit).length := by
      exact_mod_cast digitsToNat_lt _ hd1
    have h2 : (10 : Rat) ^ (rest.takeWhile pyDigit).length ≤ 10 ^ l.length :=
      pow_le_pow_right (by norm_num)
        (le_trans (List.takeWhile_sublist _).length_le hlen)
    linarith
  rcases negSplit_shape l with hs | ⟨t, heq, hs⟩ <;> rw [hs] at h
  · exact main false l le_rfl h
  · exact main true t (by rw [heq]; simp) h

/-- `pyReplaceF` with an empty replacement never lengthens the string. -/
theorem length_pyReplaceF_le (pat : List Char) :
    ∀ (n : Nat) (l : List Char), (pyReplaceF pat [] n l).length ≤ l.length := by
  intro n
  induction n with
  | zero => intro l; cases l <;> simp [pyReplaceF]
  | succ n ih =>
    intro l
    cases l with
    | nil => simp [pyReplaceF]
    | cons x t =>
      simp only [pyReplaceF]
      split
      · rw [List.nil_append]
        calc (pyReplaceF pat [] n ((x :: t).drop pat.length)).length
            ≤ ((x :: t).drop pat.length).length := ih _
          _ ≤ (x :: t).length := by simp [List.length_drop]
      · simp only [List.length_cons]
        exact Nat.succ_le_succ (ih t)

/-- `pyStrip` never lengthens the string. -/
theorem length_pyStrip_le (l : List Char) : (pyStrip l).length ≤ l.length := by
  unfold pyStrip pyLstrip pyRstrip
  calc ((((l.reverse.dropWhile pySpace).reverse).dropWhile pySpace)).length
      ≤ ((l.reverse.dropWhile pySpace).reverse).length := (List.dropWhile_sublist _).length_le
    _ = (l.reverse.dropWhile pySpace).length := by simp
    _ ≤ l.reverse.length := (List.dropWhile_sublist _).length_le
    _ = l.length := by simp

/-- The cleaning prefix never lengthens the string. -/
theorem length_cleanAns_le (l : List Char) : (cleanAns l).length ≤ l.length := by
  unfold cleanAns pyReplace
  rw [List.length_map]
  calc (pyReplaceF ['\\', ','] []
        ((List.filter (fun c => c ≠ '$') (pyStrip l)).length) (List.filter (fun c => c ≠ '$') (pyStrip l))).length
      ≤ (List.filter (fun c => c ≠ '$') (pyStrip l)).length := length_pyReplaceF_le _ _ _
    _ ≤ (pyStrip l).length := List.length_filter_le _ _
    _ ≤ l.length := length_pyStrip_le l

/-- Any parsed answer is bounded by a power of ten of the input length. -/
theorem sanitize_answer_abs_lt {s : String} {q : Rat}
    (h : sanitize_answer (some s) = some q) : |q| < 10 ^ s.length + 1 := by
  rw [sanitize_answer_some] at h
  have hlenL : (cleanAns s.data).length ≤ s.length := length_cleanAns_le s.data
  cases hpm : plainMatch ((cleanAns s.data).filter (fun c => c ≠ ',')) with
  | some v =>
    rw [hpm] at h
    have hq : v = q := Option.some.inj h
    have hb := plainMatch_abs_lt hpm
    have hlen2 : ((cleanAns s.data).filter (fun c => c ≠ ',')).length ≤ s.length :=
      le_trans (List.length_filter_le _ _) hlenL
    have hpow : (10 : Rat) ^ ((cleanAns s.data).filter (fun c => c ≠ ',')).length
        ≤ 10 ^ s.length := pow_le_pow_right (by norm_num) hlen2
    rw [← hq]
    linarith
  | none =>
    rw [hpm] at h
    have h2 : (match fracMatch (cleanAns s.data) with
       | some nd => if nd.2 = 0 then none else some ((nd.1 : Rat) / (nd.2 : Rat))
       | none => (none : Option Rat)) = some q := h
    cases hfm : fracMatch (cleanAns s.data) with
    | none => rw [hfm] at h2; simp at h2
    | some nd =>
      rw [hfm] at h2
      have h3 : (if nd.2 = 0 then none else some ((nd.1 : Rat) / (nd.2 : Rat))) = some q := h2
      by_cases hd0 : nd.2 = 0
      · rw [if_pos hd0] at h3; simp at h3
      · rw [if_neg hd0] at h3
        have hq := (Option.some.inj h3).symm
        have hb := fracMatch_abs_lt hfm
        have hpow : (10 : Rat) ^ (cleanAns s.data).length ≤ 10 ^ s.length :=
          pow_le_pow_right (by norm_num) hlenL
        have hden : (1 : Rat) ≤ (nd.2 : Rat) := by
          exact_mod_cast Nat.one_le_iff_ne_zero.mpr hd0
        have habs : |q| = |(nd.1 : Rat)| / (nd.2 : Rat) := by
          rw [hq, abs_div, abs_of_nonneg (by positivity : (0 : Rat) ≤ (nd.2 : Rat))]
        have hnum : |(nd.1 : Rat)| = (nd.1.natAbs : Rat) := by
          rw [Int.cast_natAbs, Int.cast_abs]
        have hdiv : |(nd.1 : Rat)| / (nd.2 : Rat) ≤ |(nd.1 : Rat)| :=
          div_le_self (by positivity) hden
        rw [habs]
        rw [hnum] at hdiv ⊢
        linarith

/-- C7 (amended): for inputs of bounded length (at most 300 characters),
every parsed answer stays below the IEEE-double overflow threshold, so
the float the code returns is finite. -/
theorem c7_finite_for_bounded_inputs (s : String) (q : Rat)
    (hlen : s.length ≤ 300)
    (h : sanitize_answer (some s) = some q) :
    pyFloatIsFinite q = true := by
  have habs : |q| < 10 ^ s.length + 1 := sanitize_answer_abs_lt h
  unfold pyFloatIsFinite
  rw [decide_eq_true_iff]
  have h1 : (10 : Rat) ^ s.length ≤ 10 ^ 300 :=
    pow_le_pow_right (by norm_num) hlen
  have h10 : (10 : Rat) ^ 300 < 2 ^ 1000 := by
    have hlt : ((10 : Rat) ^ 3) ^ 100 < ((2 : Rat) ^ 10) ^ 100 := by
      apply pow_lt_pow_left (by norm_num) (by positivity) (by norm_num)
    calc (10 : Rat) ^ 300 = ((10 : Rat) ^ 3) ^ 100 := by rw [← pow_mul]
      _ < ((2 : Rat) ^ 10) ^ 100 := hlt
      _ = 2 ^ 1000 := by rw [← pow_mul]
  have hB1 : (1 : Rat) < 2 ^ 1000 := by
    have := pow_le_pow_right (by norm_num : (1 : Rat) ≤ 2) (by omega : 1 ≤ 1000)
    simpa using lt_of_lt_of_le (by norm_num : (1 : Rat) < 2 ^ 1) this
  have h2B : (2 : Rat) ^ 1001 = 2 * 2 ^ 1000 := by
    rw [pow_succ]; ring
  have hC : (2 : Rat) ^ 1001 ≤ 2 ^ 1023 := pow_le_pow_right (by norm_num) (by omega)
  have hA : (2 : Rat) ^ 970 ≤ 2 ^ 1023 := pow_le_pow_right (by norm_num) (by omega)
  have hD : (2 : Rat) ^ 1024 = 2 ^ 1023 * 2 := pow_succ 2 1023
  linarith

/-- Witness for C7's amendment at the input `"19"`. -/
theorem c7_finite_for_bounded_inputs_witness : pyFloatIsFinite 19 = true :=
  c7_finite_for_bounded_inputs "19" 19 (by decide) (by with_unfolding_all rfl)

/-- `digitsFixed` always renders exactly `w` characters. -/
theorem digitsFixed_length : ∀ (w v : Nat), (digitsFixed w v).length = w := by
  intro w
  induction w with
  | zero => intro v; rfl
  | succ w ih =>
    intro v
    simp only [digitsFixed, List.length_append, List.length_cons, List.length_nil, ih]

/-- `digitsFixed` renders only digits. -/
theorem digitsFixed_digits : ∀ (w v : Nat), ∀ c ∈ digitsFixed w v, pyDigit c = true := by
  intro w
  induction w with
  | zero => intro v c hc; simp [digitsFixed] at hc
  | succ w ih =>
    intro v c hc
    simp only [digitsFixed] at hc
    rcases List.mem_append.mp hc with h1 | h1
    · exact ih _ c h1
    · have hc2 : c = Char.ofNat (48 + v % 10) := by simpa using h1
      subst hc2
      have hr : v % 10 < 10 := Nat.mod_lt _ (by omega)
      set r := v % 10 with hrdef
      interval_cases r <;> decide

/-- `digitsFixed` round trip for values below the width bound. -/
theorem digitsToNat_digitsFixed : ∀ (w v : Nat), v < 10 ^ w →
    digitsToNat (digitsFixed w v) = v := by
  intro w
  induction w with
  | zero =>
    intro v hv
    simp at hv
    simp [hv, digitsFixed, digitsToNat]
  | succ w ih =>
    intro v hv
    simp only [digitsFixed]
    rw [digitsToNat_concat]
    have hdivlt : v / 10 < 10 ^ w := by
      rw [pow_succ] at hv
      exact Nat.div_lt_of_lt_mul (by omega)
    rw [ih _ hdivlt]
    have hr : v % 10 < 10 := Nat.mod_lt _ (by omega)
    have hchar : (Char.ofNat (48 + v % 10)).toNat - 48 = v % 10 := by
      set r := v % 10 with hrdef
      interval_cases r <;> decide
    rw [hchar]
    omega

/-- A divisor of a power of ten divides a power of ten with a small
exponent (at most the divisor itself). -/
theorem exists_small_pow_ten_dvd :
    ∀ d : Nat, 0 < d → ∀ K, d ∣ 10 ^ K → ∃ k, k ≤ d ∧ d ∣ 10 ^ k := by
  intro d
  induction d using Nat.strong_induction_on with
  | _ d ih =>
    intro hd K hK
    rcases Nat.lt_or_ge d 2 with hd2 | hd2
    · have hd1 : d = 1 := by omega
      exact ⟨0, by omega, by simp [hd1]⟩
    · have hne1 : d ≠ 1 := by omega
      have hp := Nat.minFac_prime hne1
      have hpd := Nat.minFac_dvd d
      have hp10 : d.minFac ∣ 10 := hp.dvd_of_dvd_pow (dvd_trans hpd hK)
      have hple : d.minFac ≤ 10 := Nat.le_of_dvd (by omega) hp10
      have h2le := hp.two_le
      have hp25 : d.minFac = 2 ∨ d.minFac = 5 := by
        interval_cases hmf : d.minFac
        · exact Or.inl rfl
        · exact absurd hp10 (by decide)
        · exact absurd hp (by decide)
        · exact Or.inr rfl
        · exact absurd hp10 (by decide)
        · exact absurd hp10 (by decide)
        · exact absurd hp (by decide)
        · exact absurd hp10 (by decide)
        · exact absurd hp (by decide)
      set p := d.minFac with hpdef
      have hdd : d = p * (d / p) := (Nat.mul_div_cancel' hpd).symm
      have hd'pos : 0 < d / p := by
        rcases Nat.eq_zero_or_pos (d / p) with h0 | h0
        · rw [h0, Nat.mul_zero] at hdd; omega
        · exact h0
      have hd'lt : d / p < d := Nat.div_lt_self hd (by omega)
      have hd'd : d / p ∣ d := ⟨p, by rw [Nat.mul_comm (d / p) p]; exact hdd⟩
      have hd'dvd : d / p ∣ 10 ^ K := dvd_trans hd'd hK
      obtain ⟨k, hkle, hkdvd⟩ := ih (d / p) hd'lt hd'pos K hd'dvd
      refine ⟨k + 1, by omega, ?_⟩
      rw [pow_succ']
      rw [hdd]
      have hp10' : p ∣ 10 := hp10
      exact mul_dvd_mul hp10' hkdvd

/-- `decScale` finds a valid exponent whenever one exists. -/
theorem decScale_dvd {d : Nat} (hd : 0 < d) {K : Nat} (hK : d ∣ 10 ^ K) :
    d ∣ 10 ^ decScale d := by
  obtain ⟨k, hkle, hkdvd⟩ := exists_small_pow_ten_dvd d hd K hK
  have hsome : ((List.range (d + 1)).find? (fun k => decide (d ∣ 10 ^ k))).isSome = true := by
    rw [List.find?_isSome]
    exact ⟨k, List.mem_range.mpr (by omega), by simpa using hkdvd⟩
  obtain ⟨k0, hk0⟩ := Option.isSome_iff_exists.mp hsome
  have hfound := List.find?_some hk0
  unfold decScale
  rw [hk0]
  simpa using hfound

/-- The denominator of a value accepted by `plainTail` (with unit sign)
divides a power of ten. -/
theorem plainTail_den_dvd {sgn : Rat} {rest : List Char} {v : Rat}
    (hsgn : sgn = 1 ∨ sgn = -1) (h : plainTail sgn rest = some v) :
    ∃ K, v.den ∣ 10 ^ K := by
  rcases plainTail_inv h with hv | ⟨d2, _, hv⟩
  · refine ⟨0, ?_⟩
    have hden : v.den = 1 := by
      rcases hsgn with rfl | rfl
      · rw [hv, one_mul]
        exact Rat.den_natCast _
      · rw [hv, neg_one_mul]
        show ((digitsToNat (List.takeWhile pyDigit rest) : Nat) : Rat).den = 1
        exact Rat.den_natCast _
    rw [hden]
    exact one_dvd _
  · refine ⟨d2.length, ?_⟩
    set A := digitsToNat (rest.takeWhile pyDigit)
    set B := digitsToNat d2
    set e := d2.length
    have hval : v = Rat.divInt (sgn.num * (A * 10 ^ e + B)) (10 ^ e) := by
      rw [Rat.divInt_eq_div, hv]
      have h10 : ((10 : Rat) ^ e) ≠ 0 := by positivity
      rcases hsgn with rfl | rfl
      · push_cast
        field_simp
      · push_cast
        field_simp
    have hdvd := Rat.den_dvd (sgn.num * (A * 10 ^ e + B)) ((10 : Int) ^ e)
    rw [← hval] at hdvd
    have : (v.den : Int) ∣ ((10 ^ e : Nat) : Int) := by
      simpa using hdvd
    exact_mod_cast this

/-- The denominator of a value accepted by the plain-number rule divides
a power of ten. -/
theorem plainMatch_den_dvd {l : List Char} {v : Rat} (h : plainMatch l = some v) :
    ∃ K, v.den ∣ 10 ^ K := by
  unfold plainMatch at h
  rcases signSplitR_shape l with hs | ⟨t, ⟨heq, hs⟩ | ⟨heq, hs⟩⟩ <;> rw [hs] at h
  · exact plainTail_den_dvd (Or.inl rfl) h
  · exact plainTail_den_dvd (Or.inr rfl) h
  · exact plainTail_den_dvd (Or.inl rfl) h

/-- `plainTail` accepts a canonical `digits . digits` layout and returns
its exact value. -/
theorem plainTail_digits_dot (sgn : Rat) (intD fracD : List Char)
    (hi : intD ≠ []) (hid : ∀ c ∈ intD, pyDigit c = true)
    (hf : fracD ≠ []) (hfd : ∀ c ∈ fracD, pyDigit c = true) :
    plainTail sgn (intD ++ '.' :: fracD) =
      some (sgn * ((digitsToNat intD : Rat)
        + (digitsToNat fracD : Rat) / 10 ^ fracD.length)) := by
  have hdot : pyDigit '.' = false := by decide
  have htake : (intD ++ '.' :: fracD).takeWhile pyDigit = intD := by
    rw [takeWhile_app_all ('.' :: fracD) hid]
    simp [List.takeWhile_cons, hdot]
  have hdrop : (intD ++ '.' :: fracD).dropWhile pyDigit = '.' :: fracD := by
    rw [dropWhile_app_all ('.' :: fracD) hid]
    simp [List.dropWhile_cons, hdot]
  have htakeF : fracD.takeWhile pyDigit = fracD := by
    simpa using takeWhile_app_all ([] : List Char) hfd
  have hdropF : fracD.dropWhile pyDigit = [] := by
    simpa using dropWhile_app_all ([] : List Char) hfd
  unfold plainTail
  rw [htake, hdrop, if_neg hi]
  unfold plainAfterInt
  rw [if_neg (List.cons_ne_nil '.' fracD)]
  rw [if_pos (show ('.' :: fracD).head? = some '.' from rfl)]
  have hcond : ¬(('.' :: fracD).tail.takeWhile pyDigit = [] ∨
      ('.' :: fracD).tail.dropWhile pyDigit ≠ []) := by
    rw [List.tail_cons, htakeF, hdropF]
    simp [hf]
  rw [if_neg hcond]
  simp [List.tail_cons, htakeF]

/-- `plainMatch` accepts an optionally signed canonical `digits . digits`
layout and returns its exact signed value. -/
theorem plainMatch_signed_digits_dot (sgnL : List Char) (sgnV : Rat)
    (hs : (sgnL = [] ∧ sgnV = 1) ∨ (sgnL = ['-'] ∧ sgnV = -1))
    (intD fracD : List Char)
    (hi : intD ≠ []) (hid : ∀ c ∈ intD, pyDigit c = true)
    (hf : fracD ≠ []) (hfd : ∀ c ∈ fracD, pyDigit c = true) :
    plainMatch (sgnL ++ (intD ++ '.' :: fracD)) =
      some (sgnV * ((digitsToNat intD : Rat)
        + (digitsToNat fracD : Rat) / 10 ^ fracD.length)) := by
  rcases hs with ⟨rfl, rfl⟩ | ⟨rfl, rfl⟩
  · cases intD with
    | nil => exact absurd rfl hi
    | cons c t =>
      have hc : pyDigit c = true := hid c (List.mem_cons_self _ _)
      have hcm : c ≠ '-' := pyDigit_ne hc (by decide)
      have hcp : c ≠ '+' := pyDigit_ne hc (by decide)
      unfold plainMatch
      have hsplit : signSplitR ([] ++ ((c :: t) ++ '.' :: fracD)) =
          (1, (c :: t) ++ '.' :: fracD) := by
        simp [signSplitR, hcm, hcp]
      rw [hsplit]
      exact plainTail_digits_dot 1 (c :: t) fracD hi hid hf hfd
  · unfold plainMatch
    have hsplit : signSplitR (['-'] ++ (intD ++ '.' :: fracD)) =
        (-1, intD ++ '.' :: fracD) := by
      simp [signSplitR]
    rw [hsplit]
    exact plainTail_digits_dot (-1) intD fracD hi hid hf hfd

/-- On a string made only of digits, dots and minus signs, the cleaning
prefix of `sanitize_answer` is the identity and the plain-number rule
decides the result. -/
theorem sanitize_answer_plain {L : List Char} {v : Rat}
    (hall : ∀ c ∈ L, pyDigit c = true ∨ c = '.' ∨ c = '-')
    (hp : plainMatch L = some v) :
    sanitize_answer (some (String.mk L)) = some v := by
  have hclean : cleanAns L = L := by
    refine cleanAns_eq_self (fun c hc => ?_) (fun hm => ?_) (fun hm => ?_) (fun hm => ?_)
    · rcases hall c hc with h | h | h
      · exact pyDigit_not_space h
      · subst h; decide
      · subst h; decide
    · rcases hall '$' hm with h | h | h <;> exact absurd h (by decide)
    · rcases hall '\\' hm with h | h | h <;> exact absurd h (by decide)
    · rcases hall '−' hm with h | h | h <;> exact absurd h (by decide)
  have hfil : L.filter (fun c => c ≠ ',') = L := by
    refine List.filter_eq_self.mpr (fun c hc => ?_)
    simp only [decide_eq_true_eq]
    rcases hall c hc with h | h | h
    · exact pyDigit_ne h (by decide)
    · subst h; decide
    · subst h; decide
  rw [sanitize_answer_mk, hclean, hfil, hp]

/-- Round trip: the positional rendering of a nonzero finite-decimal
rational is parsed back to the same value by `sanitize_answer`. -/
theorem sanitize_roundtrip_digits {q : Rat} (hq0 : q ≠ 0) {K : Nat}
    (hK : q.den ∣ 10 ^ K) :
    sanitize_answer (some (String.mk
      ((if q < 0 then ['-'] else []) ++ pyFloatStrPos q))) = some q := by
  have hd : 0 < q.den := q.pos
  set k := decScale q.den with hkdef
  have hdk : q.den ∣ 10 ^ k := by
    rw [hkdef]
    exact decScale_dvd hd hK
  set mI : Int := q.num * 10 ^ k / (q.den : Int) with hmdef
  set M : Nat := mI.natAbs with hMdef
  have hdenI : (0 : Int) < (q.den : Int) := by exact_mod_cast hd
  have h10I : (0 : Int) < 10 ^ k := by positivity
  have h10R : ((10 : Rat) ^ k) ≠ 0 := by positivity
  have hdenR : ((q.den : Nat) : Rat) ≠ 0 := Nat.cast_ne_zero.mpr hd.ne'
  have hdvdI : ((q.den : Nat) : Int) ∣ q.num * 10 ^ k := by
    have h1 : ((q.den : Nat) : Int) ∣ ((10 ^ k : Nat) : Int) := Int.natCast_dvd_natCast.mpr hdk
    push_cast at h1
    exact Dvd.dvd.mul_left h1 q.num
  have hmul : mI * (q.den : Int) = q.num * 10 ^ k := by
    rw [hmdef]
    exact Int.ediv_mul_cancel hdvdI
  have hqeq : q = (mI : Rat) / 10 ^ k := by
    have hc : (mI : Rat) * ((q.den : Nat) : Rat) = (q.num : Rat) * 10 ^ k := by
      have h2 := congrArg (fun z : Int => (z : Rat)) hmul
      push_cast at h2
      exact h2
    rw [← Rat.num_div_den q, div_eq_div_iff hdenR h10R]
    exact hc.symm
  have hPos : pyFloatStrPos q =
      (if k = 0 then natDigits M ++ ['.', '0']
       else natDigits (M / 10 ^ k) ++ '.' :: digitsFixed k (M % 10 ^ k)) := by
    rw [hMdef, hmdef, hkdef]
    rfl
  have hmod : M % 10 ^ k < 10 ^ k := Nat.mod_lt _ (by positivity)
  have hmatch : ∀ (sgnL : List Char) (sgnV : Rat),
      ((sgnL = [] ∧ sgnV = 1) ∨ (sgnL = ['-'] ∧ sgnV = -1)) →
      plainMatch (sgnL ++ pyFloatStrPos q) = some (sgnV * ((M : Rat) / 10 ^ k)) := by
    intro sgnL sgnV hsv
    by_cases hk : k = 0
    · rw [hPos, if_pos hk]
      rw [plainMatch_signed_digits_dot sgnL sgnV hsv (natDigits M) ['0']
        (natDigits_ne_nil M) (natDigits_digits M) (by simp) (by decide)]
      have hz : digitsToNat ['0'] = 0 := by decide
      rw [digitsToNat_natDigits, hz, hk]
      norm_num
    · rw [hPos, if_neg hk]
      have hfne : digitsFixed k (M % 10 ^ k) ≠ [] := by
        intro h
        have hl := digitsFixed_length k (M % 10 ^ k)
        rw [h] at hl
        simp at hl
        omega
      rw [plainMatch_signed_digits_dot sgnL sgnV hsv (natDigits (M / 10 ^ k))
        (digitsFixed k (M % 10 ^ k)) (natDigits_ne_nil _) (natDigits_digits _)
        hfne (digitsFixed_digits k _)]
      have hdm : ((10 : Rat) ^ k) * ((M / 10 ^ k : Nat) : Rat) + ((M % 10 ^ k : Nat) : Rat)
          = (M : Rat) := by
        exact_mod_cast congrArg (fun n : Nat => (n : Rat)) (Nat.div_add_mod M (10 ^ k))
      have hsum : ((M / 10 ^ k : Nat) : Rat) + ((M % 10 ^ k : Nat) : Rat) / 10 ^ k
          = (M : Rat) / 10 ^ k := by
        rw [eq_div_iff h10R, add_mul, div_mul_cancel₀ _ h10R, ← hdm]
        ring
      rw [digitsToNat_natDigits, digitsToNat_digitsFixed k (M % 10 ^ k) hmod,
        digitsFixed_length, hsum]
  have hallP : ∀ c ∈ pyFloatStrPos q, pyDigit c = true ∨ c = '.' ∨ c = '-' := by
    intro c hc
    rw [hPos] at hc
    by_cases hk : k = 0
    · rw [if_pos hk] at hc
      rcases List.mem_append.mp hc with h | h
      · exact Or.inl (natDigits_digits M c h)
      · rcases List.mem_cons.mp h with h | h
        · exact Or.inr (Or.inl h)
        · have hc0 : c = '0' := by simpa using h
          subst hc0
          exact Or.inl (by decide)
    · rw [if_neg hk] at hc
      rcases List.mem_append.mp hc with h | h
      · exact Or.inl (natDigits_digits _ c h)
      · rcases List.mem_cons.mp h with h | h
        · exact Or.inr (Or.inl h)
        · exact Or.inl (digitsFixed_digits k _ c h)
  rcases hq0.lt_or_lt with hlt | hlt
  · have hnumlt : q.num < 0 := by
      by_contra hn
      push_neg at hn
      exact absurd (Rat.num_nonneg.mp hn) (not_le.mpr hlt)
    have hmI : mI < 0 := by
      by_contra hn
      push_neg at hn
      have h1 : (0 : Int) ≤ mI * (q.den : Int) := mul_nonneg hn hdenI.le
      rw [hmul] at h1
      have h2 : q.num * 10 ^ k < 0 := mul_neg_of_neg_of_pos hnumlt h10I
      omega
    have hmIM : mI = -((M : Nat) : Int) := by
      rw [hMdef]
      omega
    have hIr : (mI : Rat) = -((M : Nat) : Rat) := by
      rw [hmIM]
      push_cast
      ring
    rw [if_pos hlt]
    apply sanitize_answer_plain
    · intro c hc
      rcases List.mem_append.mp hc with h | h
      · have hcm : c = '-' := by simpa using h
        subst hcm
        exact Or.inr (Or.inr rfl)
      · exact hallP c h
    · have hm := hmatch ['-'] (-1) (Or.inr ⟨rfl, rfl⟩)
      have hv : (-1 : Rat) * ((M : Rat) / 10 ^ k) = q := by
        rw [hqeq, hIr]
        ring
      rw [hv] at hm
      exact hm
  · have hnumnn : 0 ≤ q.num := Rat.num_nonneg.mpr hlt.le
    have hmInn : (0 : Int) ≤ mI := by
      rw [hmdef]
      exact Int.ediv_nonneg (mul_nonneg hnumnn h10I.le) hdenI.le
    have hmIM : mI = ((M : Nat) : Int) := by
      rw [hMdef]
      omega
    have hIr : (mI : Rat) = ((M : Nat) : Rat) := by
      rw [hmIM]
      push_cast
      ring
    rw [if_neg (not_lt.mpr hlt.le)]
    apply sanitize_answer_plain
    · intro c hc
      rcases List.mem_append.mp hc with h | h
      · simp at h
      · exact hallP c h
    · have hm := hmatch [] 1 (Or.inl ⟨rfl, rfl⟩)
      have hv : (1 : Rat) * ((M : Rat) / 10 ^ k) = q := by
        rw [hqeq, hIr, one_mul]
      rw [hv] at hm
      exact hm

/-- C6 (corrected): answer sanitization is idempotent on already-plain
numeric strings whose value prints positionally — `q = 0`, or magnitude
in `[10⁻⁴, 10¹⁶ - 1)` — i.e. when the plain-number rule accepts the
cleaned string with value `q` in that range, a second pass on
`str(float)` of the result returns the same value.  The upper cutoff is
`10¹⁶ - 1`, not `10¹⁶`, because CPython chooses the notation from the
rounded double: every exact value in `[10¹⁶ - 1, 10¹⁶)` rounds to the
double `10¹⁶` and prints as `"1e+16"`, so already
`sanitize("9999999999999999.9")` fails to round-trip; from the cutoff on
`str()` is scientific, which `sanitize_answer` rejects
(`c6_counterexample`). -/
theorem c6_idempotent_positional_range (s : String) (q : Rat)
    (h : plainMatch ((cleanAns s.data).filter (fun c => c ≠ ',')) = some q)
    (hrange : q = 0 ∨ (1 / 10 ^ 4 ≤ |q| ∧ |q| < 10 ^ 16 - 1)) :
    sanitize_answer (some s) = some q ∧
    sanitize_answer (some (pyFloatStr q)) = some q := by
  constructor
  · rw [sanitize_answer_some, h]
  · rcases hrange with rfl | ⟨h1, h2⟩
    · have hz : pyFloatStr 0 = "0.0" := by
        unfold pyFloatStr
        rw [if_pos rfl]
      rw [hz]
      with_unfolding_all rfl
    · have hq0 : q ≠ 0 := by
        intro hq
        rw [hq] at h1
        norm_num at h1
      obtain ⟨K, hKd⟩ := plainMatch_den_dvd h
      have hrt := sanitize_roundtrip_digits hq0 hKd
      unfold pyFloatStr
      rw [if_neg hq0, if_pos ⟨h1, h2⟩]
      exact hrt

/-- Witness for C6 at `s = "2.5"`, `q = 5/2`. -/
theorem c6_idempotent_positional_range_witness :
    sanitize_answer (some "2.5") = some (5 / 2 : Rat) ∧
    sanitize_answer (some (pyFloatStr (5 / 2 : Rat))) = some (5 / 2 : Rat) := by
  have habs : |(5 / 2 : Rat)| = 5 / 2 := abs_of_nonneg (by norm_num)
  exact c6_idempotent_positional_range "2.5" (5 / 2 : Rat)
    (by with_unfolding_all rfl)
    (Or.inr ⟨by rw [habs]; norm_num, by rw [habs]; norm_num⟩)

/-- The adjacency check restricted to the tail. -/
theorem adjAll_cons_tail {R : Char → Char → Bool} {a : Char} {l : List Char}
    (h : adjAll R (a :: l) = true) : adjAll R l = true := by
  cases l with
  | nil => rfl
  | cons b t =>
    simp only [adjAll, Bool.and_eq_true] at h
    exact h.2

/-- The adjacency check on the first pair. -/
theorem adjAll_cons_rel {R : Char → Char → Bool} {a b : Char} {t : List Char}
    (h : adjAll R (a :: b :: t) = true) : R a b = true := by
  simp only [adjAll, Bool.and_eq_true] at h
  exact h.1

/-- Build the adjacency check for a `cons` from the head pair and the
tail. -/
theorem adjAll_cons {R : Char → Char → Bool} {a : Char} {l : List Char}
    (h1 : ∀ b, l.head? = some b → R a b = true) (h2 : adjAll R l = true) :
    adjAll R (a :: l) = true := by
  cases l with
  | nil => rfl
  | cons b t =>
    simp only [adjAll, Bool.and_eq_true]
    exact ⟨h1 b rfl, h2⟩

/-- Adjacency invariants restrict to a right part. -/
theorem adjAll_append_right {R : Char → Char → Bool} :
    ∀ {x y : List Char}, adjAll R (x ++ y) = true → adjAll R y = true := by
  intro x
  induction x with
  | nil => intro y h; exact h
  | cons a t ih => intro y h; exact ih (adjAll_cons_tail h)

/-- Adjacency invariants restrict to a left part. -/
theorem adjAll_append_left {R : Char → Char → Bool} :
    ∀ {x y : List Char}, adjAll R (x ++ y) = true → adjAll R x = true := by
  intro x
  induction x with
  | nil => intro y _; rfl
  | cons a t ih =>
    intro y h
    refine adjAll_cons (fun b hb => ?_) (ih (adjAll_cons_tail h))
    cases t with
    | nil => simp at hb
    | cons c t' =>
      have hcb : c = b := by simpa using hb
      subst hcb
      exact adjAll_cons_rel h

/-- Glue two adjacency checks across an append. -/
theorem adjAll_append {R : Char → Char → Bool} :
    ∀ {x y : List Char}, adjAll R x = true → adjAll R y = true →
      (∀ a b, x.getLast? = some a → y.head? = some b → R a b = true) →
      adjAll R (x ++ y) = true := by
  intro x
  induction x with
  | nil => intro y _ hy _; exact hy
  | cons a t ih =>
    intro y hx hy hb
    cases t with
    | nil =>
      refine adjAll_cons (fun b hbb => ?_) hy
      exact hb a b rfl hbb
    | cons c t' =>
      refine adjAll_cons (fun b hbb => ?_)
        (ih (adjAll_cons_tail hx) hy
          (fun p q hp hq => hb p q (by rw [List.getLast?_cons_cons]; exact hp) hq))
      have hcb : c = b := by simpa using hbb
      subst hcb
      exact adjAll_cons_rel hx

/-- Adjacency invariants restrict to an infix. -/
theorem adjAll_within {R : Char → Char → Bool} {m l : List Char}
    (h : m <:+: l) (ha : adjAll R l = true) : adjAll R m = true := by
  obtain ⟨s, t, rfl⟩ := h
  exact adjAll_append_left (adjAll_append_right (by rwa [List.append_assoc] at ha))

/-- `pyStrip` output is an infix of the input. -/
theorem pyStrip_within (l : List Char) : pyStrip l <:+: l := by
  have h1 : pyRstrip l <+: l := by
    obtain ⟨s, hs⟩ :=
      (List.dropWhile_suffix pySpace : List.dropWhile pySpace l.reverse <:+ l.reverse)
    refine ⟨s.reverse, ?_⟩
    show (List.dropWhile pySpace l.reverse).reverse ++ s.reverse = l
    rw [← List.reverse_append, hs, List.reverse_reverse]
  have h2 : pyStrip l <:+ pyRstrip l :=
    (List.dropWhile_suffix pySpace : List.dropWhile pySpace (pyRstrip l) <:+ pyRstrip l)
  exact h2.isInfix.trans h1.isInfix

/-- The head of collapsed whitespace: the head of the input with
whitespace normalized to a space. -/
theorem collapseWS_head (l : List Char) :
    (collapseWS l).head? = l.head?.map (fun c => if pySpace c then ' ' else c) := by
  cases l with
  | nil => rfl
  | cons c t =>
    simp only [collapseWS]
    by_cases hc : pySpace c
    · rw [if_pos hc]
      by_cases hr : (collapseWS t).head? = some ' '
      · rw [if_pos hr, hr]
        simp [hc]
      · rw [if_neg hr]
        simp [hc]
    · rw [if_neg hc]
      simp [hc]

/-- `collapseWS` output never has two consecutive spaces. -/
theorem adjAll_noDbl_collapseWS : ∀ (l : List Char),
    adjAll noDblSpaceR (collapseWS l) = true := by
  intro l
  induction l with
  | nil => rfl
  | cons c t ih =>
    simp only [collapseWS]
    by_cases hc : pySpace c
    · rw [if_pos hc]
      by_cases hr : (collapseWS t).head? = some ' '
      · rw [if_pos hr]; exact ih
      · rw [if_neg hr]
        refine adjAll_cons (fun b hb => ?_) ih
        have hbne : b ≠ ' ' := fun he => hr (by rw [hb, he])
        simp [noDblSpaceR, hbne]
    · rw [if_neg hc]
      refine adjAll_cons (fun b hb => ?_) ih
      have hcne : c ≠ ' ' := fun he => by rw [he] at hc; exact hc (by decide)
      simp [noDblSpaceR, hcne]

/-- Collapsing whitespace preserves the operator-spacing adjacency
invariant. -/
theorem adjAll_opSpaced_collapseWS : ∀ {l : List Char},
    adjAll opSpacedR l = true → adjAll opSpacedR (collapseWS l) = true := by
  intro l
  induction l with
  | nil => intro _; rfl
  | cons c t ih =>
    intro h
    have ht := adjAll_cons_tail h
    have hsp : isOp ' ' = false := by decide
    simp only [collapseWS]
    by_cases hc : pySpace c
    · rw [if_pos hc]
      by_cases hr : (collapseWS t).head? = some ' '
      · rw [if_pos hr]; exact ih ht
      · rw [if_neg hr]
        refine adjAll_cons (fun b hb => ?_) (ih ht)
        simp [opSpacedR, hsp]
    · rw [if_neg hc]
      refine adjAll_cons (fun b hb => ?_) (ih ht)
      rw [collapseWS_head t] at hb
      cases htd : t.head? with
      | none => rw [htd] at hb; simp at hb
      | some d =>
        rw [htd] at hb
        simp only [Option.map_some'] at hb
        have hb' : (if pySpace d then ' ' else d) = b := Option.some.inj hb
        by_cases hd : pySpace d
        · rw [if_pos hd] at hb'
          subst hb'
          simp [opSpacedR, hsp]
        · rw [if_neg hd] at hb'
          subst hb'
          cases t with
          | nil => simp at htd
          | cons e t'' =>
            have hed : e = d := by simpa using htd
            subst hed
            exact adjAll_cons_rel h

/-- In the output of `expandOps` every operator glyph has a space on each
side, and the output never starts with an operator glyph. -/
theorem expandOps_opSpaced : ∀ (l : List Char),
    adjAll opSpacedR (expandOps l) = true ∧
      (∀ h, (expandOps l).head? = some h → isOp h = false) := by
  intro l
  induction l with
  | nil => exact ⟨rfl, fun h hh => by simp [expandOps] at hh⟩
  | cons c t ih =>
    have hE : expandOps (c :: t) = (if isOp c then [' ', c, ' '] else [c]) ++ expandOps t := rfl
    have hsp : isOp ' ' = false := by decide
    constructor
    · rw [hE]
      refine adjAll_append ?_ ih.1 ?_
      · by_cases hc : isOp c
        · rw [if_pos hc]
          simp [adjAll, opSpacedR, hsp]
        · rw [if_neg hc]
          rfl
      · intro a b ha hb
        have hbop : isOp b = false := ih.2 b hb
        by_cases hc : isOp c
        · rw [if_pos hc] at ha
          simp only [List.getLast?_cons_cons, List.getLast?_singleton] at ha
          have ha' : a = ' ' := (Option.some.inj ha).symm
          subst ha'
          simp [opSpacedR, hsp, hbop]
        · rw [if_neg hc] at ha
          simp only [List.getLast?_singleton] at ha
          have ha' : a = c := (Option.some.inj ha).symm
          have hc' : isOp a = false := by rw [ha']; exact Bool.eq_false_iff.mpr hc
          simp [opSpacedR, hc', hbop]
    · intro h hh
      rw [hE] at hh
      by_cases hc : isOp c
      · rw [if_pos hc] at hh
        have hh' : h = ' ' := by
          simp only [List.cons_append, List.head?_cons] at hh
          exact (Option.some.inj hh).symm
        subst hh'
        exact hsp
      · rw [if_neg hc] at hh
        have hh' : h = c := by
          simp only [List.cons_append, List.head?_cons] at hh
          exact (Option.some.inj hh).symm
        subst hh'
        exact Bool.eq_false_iff.mpr hc

/-- A single-character replacement is a `flatMap` (fueled form). -/
theorem pyReplaceF_single (a : Char) (r : List Char) :
    ∀ (n : Nat) (l : List Char), l.length ≤ n →
      pyReplaceF [a] r n l = l.flatMap (fun c => if c = a then r else [c]) := by
  intro n
  induction n with
  | zero =>
    intro l hl
    rw [Nat.le_zero, List.length_eq_zero] at hl
    subst hl
    rfl
  | succ n ih =>
    intro l hl
    cases l with
    | nil => rfl
    | cons c t =>
      have hlt : t.length ≤ n := by
        simp only [List.length_cons] at hl
        omega
      simp only [pyReplaceF, List.isPrefixOf, Bool.and_true, List.flatMap_cons]
      by_cases hca : c = a
      · subst hca
        rw [if_pos (by simp), if_pos rfl]
        simp only [List.length_cons, List.length_nil, Nat.zero_add, List.drop_succ_cons,
          List.drop_zero]
        rw [ih t hlt]
      · have hac : ¬ a = c := fun h => hca h.symm
        rw [if_neg (by simpa using hac), if_neg hca]
        rw [List.cons_append, List.nil_append]
        rw [ih t hlt]

/-- A single-character replacement is a `flatMap`. -/
theorem pyReplace_single (a : Char) (r : List Char) (l : List Char) :
    pyReplace [a] r l = l.flatMap (fun c => if c = a then r else [c]) :=
  pyReplaceF_single a r l.length l le_rfl

/-- Steps 11-14 of `sanitize_text` compose to `expandOps`. -/
theorem expandOps_eq_steps : ∀ (l : List Char),
    pyReplace ['÷'] [' ', '÷', ' '] (pyReplace ['×'] [' ', '×', ' ']
      (pyReplace ['-'] [' ', '-', ' '] (pyReplace ['+'] [' ', '+', ' '] l))) =
      expandOps l := by
  intro l
  rw [pyReplace_single, pyReplace_single, pyReplace_single, pyReplace_single]
  induction l with
  | nil => rfl
  | cons c t ih =>
    simp only [expandOps, List.flatMap_cons, List.flatMap_append] at ih ⊢
    rw [ih]
    congr 1
    by_cases h1 : c = '+'
    · subst h1; decide
    by_cases h2 : c = '-'
    · subst h2; decide
    by_cases h3 : c = '×'
    · subst h3; decide
    by_cases h4 : c = '÷'
    · subst h4; decide
    have hop : isOp c = false := by
      simp [isOp, h1, h2, h3, h4]
    simp [h1, h2, h3, h4, hop]

/-- The `sanitize_text` pipeline with steps 11-14 fused into
`expandOps`. -/
theorem sanitizeTextCore_eq (l : List Char) :
    sanitizeTextCore l = pyStrip (collapseWS (expandOps (pyStrip (pyRstripEq (pyRstrip
      (dropBS (pyReplace ['\\', 'c', 'd', 'o', 't'] ['×']
        (pyReplace ['\\', '\\', 'd', 'i', 'v'] ['÷']
        (pyReplace ['\\', 'd', 'i', 'v'] ['÷']
        (pyReplace ['\\', '\\', 't', 'i', 'm', 'e', 's'] ['×']
        (pyReplace ['\\', 't', 'i', 'm', 'e', 's'] ['×']
        (fracSub ((pyStrip l).filter (fun c => c ≠ '$')))))))))))))) := by
  rw [← expandOps_eq_steps]
  rfl

/-- C5 (corrected): in every `sanitize_text` output each operator glyph
has a space or the string boundary on each side — never a non-space
neighbour — and the output never contains two adjacent spaces.  The
boundary case is real: `c5_counterexample` shows the as-stated
"exactly one space on each side" fails for `sanitize_text "-5"`. -/
theorem c5_ops_spaced_or_boundary (s : String) :
    adjAll opSpacedR (sanitize_text (some s)).data = true ∧
    adjAll noDblSpaceR (sanitize_text (some s)).data = true := by
  simp only [sanitize_text]
  show adjAll opSpacedR (sanitizeTextCore s.data) = true ∧
    adjAll noDblSpaceR (sanitizeTextCore s.data) = true
  rw [sanitizeTextCore_eq]
  constructor
  · exact adjAll_within (pyStrip_within _) (adjAll_opSpaced_collapseWS (expandOps_opSpaced _).1)
  · exact adjAll_within (pyStrip_within _) (adjAll_noDbl_collapseWS _)

/-- The head surviving `dropWhile` fails the predicate. -/
theorem head_dropWhile_not {p : Char → Bool} : ∀ (l : List Char) {c : Char},
    (l.dropWhile p).head? = some c → p c = false := by
  intro l
  induction l with
  | nil => intro c h; simp at h
  | cons a t ih =>
    intro c h
    rw [List.dropWhile_cons] at h
    by_cases ha : p a = true
    · rw [if_pos ha] at h
      exact ih h
    · rw [if_neg ha] at h
      have hac : a = c := by simpa using h
      exact hac ▸ Bool.eq_false_iff.mpr ha

/-- The first character of a stripped string is not whitespace. -/
theorem pyStrip_head_not_space (l : List Char) {c : Char}
    (h : (pyStrip l).head? = some c) : pySpace c = false := by
  unfold pyStrip pyLstrip at h
  exact head_dropWhile_not _ h

/-- The last character of a right-stripped string is not whitespace. -/
theorem pyRstrip_getLast_not_space (l : List Char) {c : Char}
    (h : (pyRstrip l).getLast? = some c) : pySpace c = false := by
  unfold pyRstrip at h
  rw [List.getLast?_reverse] at h
  exact head_dropWhile_not _ h

/-- The last character of a stripped string is not whitespace. -/
theorem pyStrip_getLast_not_space (l : List Char) {c : Char}
    (h : (pyStrip l).getLast? = some c) : pySpace c = false := by
  unfold pyStrip pyLstrip at h
  have hne : (pyRstrip l).dropWhile pySpace ≠ [] := by
    intro he
    rw [he] at h
    simp at h
  obtain ⟨s, hs⟩ := (List.dropWhile_suffix pySpace :
    (pyRstrip l).dropWhile pySpace <:+ pyRstrip l)
  exact pyRstrip_getLast_not_space l (by rw [← hs, getLast?_append_right hne]; exact h)

/-- Whitespace surviving `collapseWS` is exactly the space character. -/
theorem space_mem_collapseWS {c : Char} :
    ∀ (l : List Char), c ∈ collapseWS l → pySpace c = true → c = ' ' := by
  intro l
  induction l with
  | nil => intro h _; simp [collapseWS] at h
  | cons a t ih =>
    intro h hc
    simp only [collapseWS] at h
    by_cases ha : pySpace a = true
    · rw [if_pos ha] at h
      by_cases hr : (collapseWS t).head? = some ' '
      · rw [if_pos hr] at h
        exact ih h hc
      · rw [if_neg hr] at h
        rcases List.mem_cons.mp h with h1 | h1
        · exact h1
        · exact ih h1 hc
    · rw [if_neg ha] at h
      rcases List.mem_cons.mp h with h1 | h1
      · exact absurd (h1 ▸ hc) ha
      · exact ih h1 hc

/-- Members of the optional-sign prefix. -/
theorem mem_negSplit_snd {c : Char} {l : List Char} (h : c ∈ (negSplit l).2) : c ∈ l := by
  rcases negSplit_shape l with hs | ⟨t, ht, hs⟩
  · rw [hs] at h
    exact h
  · rw [hs] at h
    rw [ht]
    exact List.mem_cons_of_mem _ h

/-- Members of an `if`-guarded minus sign. -/
theorem mem_signList {b : Bool} {c : Char}
    (h : c ∈ (if b then ['-'] else ([] : List Char))) : c = '-' := by
  cases b
  · simp at h
  · simpa using h

/-- Characters of a fraction-markup replacement come from the input, a
slash, or a minus sign; the unconsumed rest comes from the input. -/
theorem mem_matchFrac {l repl rest : List Char}
    (h : matchFrac l = some (repl, rest)) :
    (∀ c ∈ repl, c ∈ l ∨ c = '/' ∨ c = '-') ∧ (∀ c ∈ rest, c ∈ l) := by
  unfold matchFrac at h
  split at h
  · next r1 =>
    have hmem_r1 : ∀ c, c ∈ r1 → c ∈ '\\' :: 'f' :: 'r' :: 'a' :: 'c' :: '\x7b' :: r1 := by
      intro c hc
      simp only [List.mem_cons]
      exact Or.inr (Or.inr (Or.inr (Or.inr (Or.inr (Or.inr hc)))))
    dsimp only [] at h
    split at h
    · exact absurd h (by simp)
    · split at h
      · next r4 heq1 =>
        have hmem_r4 : ∀ c, c ∈ r4 → c ∈ r1 := by
          intro c hc
          have h1 : c ∈ (negSplit r1).2.dropWhile pyDigit := by
            rw [heq1]
            exact List.mem_cons_of_mem _ (List.mem_cons_of_mem _ hc)
          exact mem_negSplit_snd (List.Sublist.mem h1 (List.dropWhile_sublist _))
        split at h
        · exact absurd h (by simp)
        · split at h
          · next r7 heq2 =>
            have hmem_r7 : ∀ c, c ∈ r7 → c ∈ r4 := by
              intro c hc
              have h1 : c ∈ (negSplit r4).2.dropWhile pyDigit := by
                rw [heq2]
                exact List.mem_cons_of_mem _ hc
              exact mem_negSplit_snd (List.Sublist.mem h1 (List.dropWhile_sublist _))
            injection h with h'
            rw [Prod.mk.injEq] at h'
            obtain ⟨hrepl, hrest⟩ := h'
            constructor
            · intro c hc
              rw [← hrepl] at hc
              rcases List.mem_append.mp hc with hc1 | hc1
              · rcases List.mem_append.mp hc1 with hc2 | hc2
                · exact Or.inr (Or.inr (mem_signList hc2))
                · exact Or.inl (hmem_r1 c (mem_negSplit_snd
                    (List.Sublist.mem hc2 (List.takeWhile_sublist _))))
              · rcases List.mem_cons.mp hc1 with hc2 | hc2
                · exact Or.inr (Or.inl hc2)
                · rcases List.mem_append.mp hc2 with hc3 | hc3
                  · exact Or.inr (Or.inr (mem_signList hc3))
                  · exact Or.inl (hmem_r1 c (hmem_r4 c (mem_negSplit_snd
                      (List.Sublist.mem hc3 (List.takeWhile_sublist _)))))
            · intro c hc
              rw [← hrest] at hc
              exact hmem_r1 c (hmem_r4 c (hmem_r7 c hc))
          · exact absurd h (by simp)
      · exact absurd h (by simp)
  · exact absurd h (by simp)

/-- Characters surviving the fraction rewrite come from the input, a
slash, or a minus sign. -/
theorem mem_fracSubF {c : Char} :
    ∀ (n : Nat) (l : List Char), c ∈ fracSubF n l → c ∈ l ∨ c = '/' ∨ c = '-' := by
  intro n
  induction n with
  | zero =>
    intro l h
    cases l with
    | nil => simp [fracSubF] at h
    | cons x t => exact Or.inl h
  | succ n ih =>
    intro l h
    cases l with
    | nil => simp [fracSubF] at h
    | cons x t =>
      simp only [fracSubF] at h
      cases hm : matchFrac (x :: t) with
      | none =>
        rw [hm] at h
        have h' : c ∈ x :: fracSubF n t := h
        rcases List.mem_cons.mp h' with h1 | h1
        · exact Or.inl (h1 ▸ List.mem_cons_self x t)
        · rcases ih t h1 with h2 | h2
          · exact Or.inl (List.mem_cons_of_mem x h2)
          · exact Or.inr h2
      | some pr =>
        obtain ⟨repl, rest⟩ := pr
        rw [hm] at h
        have h' : c ∈ repl ++ fracSubF n rest := h
        rcases List.mem_append.mp h' with h1 | h1
        · rcases (mem_matchFrac hm).1 c h1 with h2 | h2
          · exact Or.inl h2
          · exact Or.inr h2
        · rcases ih rest h1 with h2 | h2
          · exact Or.inl ((mem_matchFrac hm).2 c h2)
          · exact Or.inr h2

/-- Characters surviving `expandOps` come from the input or are inserted
spaces. -/
theorem mem_expandOps {c : Char} {l : List Char} (h : c ∈ expandOps l) :
    c ∈ l ∨ c = ' ' := by
  unfold expandOps at h
  rw [List.mem_flatMap] at h
  obtain ⟨a, ha, hc⟩ := h
  by_cases hop : isOp a = true
  · rw [if_pos hop] at hc
    rcases List.mem_cons.mp hc with h1 | h1
    · exact Or.inr h1
    rcases List.mem_cons.mp h1 with h2 | h2
    · exact Or.inl (h2 ▸ ha)
    · have h3 : c = ' ' := by simpa using h2
      exact Or.inr h3
  · rw [if_neg hop] at hc
    have h3 : c = a := by simpa using hc
    exact Or.inl (h3 ▸ ha)

/-- `sanitize_text` output never contains a dollar sign. -/
theorem sanitizeTextCore_no_dollar (l : List Char) : '$' ∉ sanitizeTextCore l := by
  intro h
  rw [sanitizeTextCore_eq] at h
  have h2 := mem_pyStrip h
  rcases mem_collapseWS _ h2 with h3 | h3
  swap
  · exact absurd h3 (by decide)
  rcases mem_expandOps h3 with h4 | h4
  swap
  · exact absurd h4 (by decide)
  have h5 := mem_dropBSF _ _ (mem_pyRstrip (mem_pyRstripEq (mem_pyStrip h4)))
  rcases mem_pyReplaceF _ _ h5 with h6 | h6
  · exact absurd h6 (by decide)
  rcases mem_pyReplaceF _ _ h6 with h7 | h7
  · exact absurd h7 (by decide)
  rcases mem_pyReplaceF _ _ h7 with h8 | h8
  · exact absurd h8 (by decide)
  rcases mem_pyReplaceF _ _ h8 with h9 | h9
  · exact absurd h9 (by decide)
  rcases mem_pyReplaceF _ _ h9 with h10 | h10
  · exact absurd h10 (by decide)
  rcases mem_fracSubF _ _ h10 with h11 | h11
  swap
  · rcases h11 with h12 | h12 <;> exact absurd h12 (by decide)
  have h13 := (List.mem_filter.mp h11).2
  simp at h13

/-- `collapseWS` step on a non-whitespace head. -/
theorem collapseWS_cons_of_neg {c : Char} {t : List Char} (hc : pySpace c = false) :
    collapseWS (c :: t) = c :: collapseWS t := by
  simp [collapseWS, hc]

/-- `collapseWS` step on a whitespace head followed by a space. -/
theorem collapseWS_cons_space_hit {c : Char} {t : List Char} (hc : pySpace c = true)
    (hh : (collapseWS t).head? = some ' ') :
    collapseWS (c :: t) = collapseWS t := by
  simp [collapseWS, hc, hh]

/-- `collapseWS` step on a whitespace head not followed by a space. -/
theorem collapseWS_cons_space_miss {c : Char} {t : List Char} (hc : pySpace c = true)
    (hh : (collapseWS t).head? ≠ some ' ') :
    collapseWS (c :: t) = ' ' :: collapseWS t := by
  simp [collapseWS, hc, hh]

/-- `opTrail` ignores a leading character of a two-or-more list. -/
theorem opTrail_cons_cons (a b : Char) (t : List Char) :
    opTrail (a :: b :: t) = opTrail (b :: t) := by
  simp [opTrail, List.getLast?_cons_cons]

/-- On a string whose operators are space-separated, with no double
spaces and only plain spaces as whitespace, collapsing the operator
expansion restores the string up to one boundary space on each
operator end. -/
theorem collapseWS_expandOps : ∀ {l : List Char},
    adjAll opSpacedR l = true → adjAll noDblSpaceR l = true →
    (∀ c ∈ l, pySpace c = true → c = ' ') →
    collapseWS (expandOps l) = opLead l ++ l ++ opTrail l := by
  intro l
  induction l with
  | nil => intro _ _ _; rfl
  | cons c t ih =>
    intro hsp hdb hws
    have hsp' := adjAll_cons_tail hsp
    have hdb' := adjAll_cons_tail hdb
    have hws' : ∀ x ∈ t, pySpace x = true → x = ' ' :=
      fun x hx => hws x (List.mem_cons_of_mem c hx)
    have ihv := ih hsp' hdb' hws'
    have hspo : isOp ' ' = false := by decide
    have hE : expandOps (c :: t) = (if isOp c then [' ', c, ' '] else [c]) ++ expandOps t := rfl
    rw [hE]
    by_cases hc : isOp c = true
    · have hcs : pySpace c = false := isOp_not_space hc
      have hcne : c ≠ ' ' := fun he => by rw [he] at hcs; exact absurd hcs (by decide)
      rw [if_pos hc]
      have hlead : opLead (c :: t) = [' '] := by simp [opLead, hc]
      cases t with
      | nil =>
        have e1 : collapseWS ([' '] : List Char) = [' '] := rfl
        have e2 : collapseWS (c :: [' ']) = c :: [' '] := collapseWS_cons_of_neg hcs
        have e3 : collapseWS (' ' :: c :: [' ']) = ' ' :: c :: [' '] := by
          rw [collapseWS_cons_space_miss (by decide) (by rw [e2]; simp [hcne])]
          rw [e2]
        have htr : opTrail [c] = [' '] := by simp [opTrail, hc]
        rw [show ([' ', c, ' '] ++ expandOps ([] : List Char)) = [' ', c, ' '] from rfl]
        rw [show ([' ', c, ' '] : List Char) = ' ' :: c :: [' '] from rfl, e3]
        rw [hlead, htr]
        rfl
      | cons d t' =>
        have hd : d = ' ' := by
          have hrel := adjAll_cons_rel hsp
          simp only [opSpacedR, Bool.and_eq_true, Bool.or_eq_true] at hrel
          rcases hrel.1 with h1 | h1
          · rw [hc] at h1; simp at h1
          · simpa using h1
        subst hd
        have hhead : (collapseWS (expandOps (' ' :: t'))).head? = some ' ' := by
          rw [ihv]
          simp [opLead, hspo]
        have e1 : collapseWS (' ' :: expandOps (' ' :: t')) =
            collapseWS (expandOps (' ' :: t')) :=
          collapseWS_cons_space_hit (by decide) hhead
        have e2 : collapseWS (c :: ' ' :: expandOps (' ' :: t')) =
            c :: collapseWS (expandOps (' ' :: t')) := by
          rw [collapseWS_cons_of_neg hcs, e1]
        have e3 : collapseWS (' ' :: c :: ' ' :: expandOps (' ' :: t')) =
            ' ' :: c :: collapseWS (expandOps (' ' :: t')) := by
          rw [collapseWS_cons_space_miss (by decide) (by rw [e2]; simp [hcne])]
          rw [e2]
        rw [show ([' ', c, ' '] ++ expandOps (' ' :: t')) =
          ' ' :: c :: ' ' :: expandOps (' ' :: t') from rfl, e3, ihv, hlead,
          opTrail_cons_cons]
        simp [opLead, hspo]
    · rw [if_neg hc]
      have hcop : isOp c = false := Bool.eq_false_iff.mpr hc
      have hlead : opLead (c :: t) = [] := by simp [opLead, hcop]
      by_cases hcsp : pySpace c = true
      · have hc' : c = ' ' := hws c (List.mem_cons_self c t) hcsp
        subst hc'
        cases t with
        | nil =>
          rw [show (([' '] : List Char) ++ expandOps ([] : List Char)) = [' '] from rfl]
          rw [show collapseWS ([' '] : List Char) = [' '] from rfl]
          simp [opLead, opTrail, hspo]
        | cons d t' =>
          have hdne : d ≠ ' ' := by
            have hrel := adjAll_cons_rel hdb
            simp only [noDblSpaceR, Bool.not_eq_true', Bool.and_eq_false_iff] at hrel
            rcases hrel with h1 | h1
            · simp at h1
            · simpa using h1
          by_cases hdo : isOp d = true
          · have hhead : (collapseWS (expandOps (d :: t'))).head? = some ' ' := by
              rw [ihv]
              simp [opLead, hdo]
            rw [show (([' '] : List Char) ++ expandOps (d :: t')) =
              ' ' :: expandOps (d :: t') from rfl]
            rw [collapseWS_cons_space_hit (by decide) hhead, ihv, hlead,
              opTrail_cons_cons]
            simp [opLead, hdo]
          · have hdop : isOp d = false := Bool.eq_false_iff.mpr hdo
            have hhead : (collapseWS (expandOps (d :: t'))).head? = some d := by
              rw [ihv]
              simp [opLead, hdop]
            rw [show (([' '] : List Char) ++ expandOps (d :: t')) =
              ' ' :: expandOps (d :: t') from rfl]
            rw [collapseWS_cons_space_miss (by decide)
              (by rw [hhead]; simp [hdne]), ihv, hlead,
              opTrail_cons_cons]
            simp [opLead, hdop]
      · have hcs : pySpace c = false := Bool.eq_false_iff.mpr hcsp
        cases t with
        | nil =>
          rw [show (([c] : List Char) ++ expandOps ([] : List Char)) = [c] from rfl]
          rw [collapseWS_cons_of_neg hcs]
          simp [opLead, opTrail, hcop, collapseWS]
        | cons d t' =>
          have hdop : isOp d = false := by
            have hrel := adjAll_cons_rel hsp
            simp only [opSpacedR, Bool.and_eq_true, Bool.or_eq_true] at hrel
            rcases hrel.2 with h1 | h1
            · simpa using h1
            · have hcsp' : c = ' ' := by simpa using h1
              exact absurd hcsp' (fun he => by rw [he] at hcs; exact absurd hcs (by decide))
          rw [show (([c] : List Char) ++ expandOps (d :: t')) =
            c :: expandOps (d :: t') from rfl]
          rw [collapseWS_cons_of_neg hcs, ihv, hlead, opTrail_cons_cons]
          simp [opLead, hdop]

/-- `pyRstrip` removes exactly one trailing space from a string that
otherwise ends in non-whitespace. -/
theorem pyRstrip_append_space (x : List Char)
    (h : ∀ c, x.getLast? = some c → pySpace c = false) :
    pyRstrip (x ++ [' ']) = x := by
  unfold pyRstrip
  rw [List.reverse_append]
  rw [show ((([' '] : List Char).reverse) ++ x.reverse) = ' ' :: x.reverse from rfl]
  rw [List.dropWhile_cons, if_pos (by decide)]
  rw [dropWhile_eq_self_of_head (fun c hc => h c (by rwa [List.head?_reverse] at hc)),
    List.reverse_reverse]

/-- `opLead` is empty or a single space. -/
theorem opLead_cases (l : List Char) : opLead l = [] ∨ opLead l = [' '] := by
  unfold opLead
  cases l.head? with
  | none => exact Or.inl rfl
  | some h =>
    by_cases hop : isOp h = true
    · exact Or.inr (by simp [hop])
    · exact Or.inl (by simp [hop])

/-- `opTrail` is empty or a single space. -/
theorem opTrail_cases (l : List Char) : opTrail l = [] ∨ opTrail l = [' '] := by
  unfold opTrail
  cases l.getLast? with
  | none => exact Or.inl rfl
  | some h =>
    by_cases hop : isOp h = true
    · exact Or.inr (by simp [hop])
    · exact Or.inl (by simp [hop])

/-- Stripping a string framed by at most one space on each side recovers
the string, provided it neither starts nor ends in whitespace. -/
theorem pyStrip_lead_trail {m : List Char}
    (hh : ∀ c, m.head? = some c → pySpace c = false)
    (hl : ∀ c, m.getLast? = some c → pySpace c = false)
    {L T : List Char} (hL : L = [] ∨ L = [' ']) (hT : T = [] ∨ T = [' ']) :
    pyStrip (L ++ m ++ T) = m := by
  cases m with
  | nil =>
    rcases hL with rfl | rfl <;> rcases hT with rfl | rfl <;> decide
  | cons a t =>
    have hmne : (a :: t) ≠ [] := List.cons_ne_nil a t
    have hR : pyRstrip (L ++ (a :: t) ++ T) = L ++ (a :: t) := by
      rcases hT with rfl | rfl
      · rw [List.append_nil]
        refine pyRstrip_eq_self (fun c hc => ?_)
        rw [getLast?_append_right hmne] at hc
        exact hl c hc
      · refine pyRstrip_append_space _ (fun c hc => ?_)
        rw [getLast?_append_right hmne] at hc
        exact hl c hc
    have hL2 : pyLstrip (L ++ (a :: t)) = a :: t := by
      rcases hL with rfl | rfl
      · rw [List.nil_append]
        exact pyLstrip_eq_self hh
      · rw [show (([' '] : List Char) ++ (a :: t)) = ' ' :: (a :: t) from rfl]
        unfold pyLstrip
        rw [List.dropWhile_cons, if_pos (by decide)]
        exact dropWhile_eq_self_of_head hh
    show pyLstrip (pyRstrip (L ++ (a :: t) ++ T)) = a :: t
    rw [hR, hL2]

/-- `sanitize_text` is idempotent whenever its output does not end in an
equals sign: every cleaning step of a second pass is the identity on the
first pass's output. -/
theorem sanitizeTextCore_idem (x : List Char)
    (hne : ∀ c, (sanitizeTextCore x).getLast? = some c → c ≠ '=') :
    sanitizeTextCore (sanitizeTextCore x) = sanitizeTextCore x := by
  set out := sanitizeTextCore x with hout
  obtain ⟨V, hV⟩ : ∃ V, out = pyStrip (collapseWS (expandOps V)) :=
    ⟨_, sanitizeTextCore_eq x⟩
  have hbs : '\\' ∉ out := sanitizeTextCore_no_bs x
  have hdl : '$' ∉ out := sanitizeTextCore_no_dollar x
  have hh : ∀ c, out.head? = some c → pySpace c = false := by
    intro c hc
    rw [hV] at hc
    exact pyStrip_head_not_space _ hc
  have hl : ∀ c, out.getLast? = some c → pySpace c = false := by
    intro c hc
    rw [hV] at hc
    exact pyStrip_getLast_not_space _ hc
  have hws : ∀ c ∈ out, pySpace c = true → c = ' ' := by
    intro c hc hcs
    rw [hV] at hc
    exact space_mem_collapseWS _ (mem_pyStrip hc) hcs
  have hspc : adjAll opSpacedR out = true := by
    rw [hV]
    exact adjAll_within (pyStrip_within _) (adjAll_opSpaced_collapseWS (expandOps_opSpaced _).1)
  have hdb : adjAll noDblSpaceR out = true := by
    rw [hV]
    exact adjAll_within (pyStrip_within _) (adjAll_noDbl_collapseWS _)
  have e1 : pyStrip out = out := pyStrip_eq_self hh hl
  have e2 : out.filter (fun c => c ≠ '$') = out := by
    refine List.filter_eq_self.mpr (fun c hc => ?_)
    simp only [decide_eq_true_eq]
    intro he
    exact hdl (he ▸ hc)
  have e3 : fracSub out = out := fracSubF_eq_self _ _ hbs
  have e4 : pyReplace ['\\', 't', 'i', 'm', 'e', 's'] ['×'] out = out :=
    pyReplaceF_eq_self _ _ hbs
  have e5 : pyReplace ['\\', '\\', 't', 'i', 'm', 'e', 's'] ['×'] out = out :=
    pyReplaceF_eq_self _ _ hbs
  have e6 : pyReplace ['\\', 'd', 'i', 'v'] ['÷'] out = out :=
    pyReplaceF_eq_self _ _ hbs
  have e7 : pyReplace ['\\', '\\', 'd', 'i', 'v'] ['÷'] out = out :=
    pyReplaceF_eq_self _ _ hbs
  have e8 : pyReplace ['\\', 'c', 'd', 'o', 't'] ['×'] out = out :=
    pyReplaceF_eq_self _ _ hbs
  have e9 : dropBS out = out := dropBSF_eq_self _ hbs
  have e10 : pyRstrip out = out := pyRstrip_eq_self hl
  have e11 : pyRstripEq out = out := pyRstripEq_eq_self hne
  have e12 : collapseWS (expandOps out) = opLead out ++ out ++ opTrail out :=
    collapseWS_expandOps hspc hdb hws
  have e13 : pyStrip (opLead out ++ out ++ opTrail out) = out :=
    pyStrip_lead_trail hh hl (opLead_cases out) (opTrail_cases out)
  rw [sanitizeTextCore_eq out, e1, e2, e3, e4, e5, e6, e7, e8, e9, e10, e11, e1, e12, e13]

/-- C9 (corrected): `sanitize_text` is idempotent on every input whose
sanitized output does not end in `'='`; the exception is real —
`c9_counterexample` exhibits input `"a = =="` whose output `"a ="` ends
in `'='` and is changed by a second pass. -/
theorem c9_idempotent_unless_trailing_eq (s : String)
    (h : (sanitize_text (some s)).data.getLast? ≠ some '=') :
    sanitize_text (some (sanitize_text (some s))) = sanitize_text (some s) := by
  have hd : (sanitize_text (some s)).data = sanitizeTextCore s.data := by
    simp only [sanitize_text]
  rw [hd] at h
  have hne : ∀ c, (sanitizeTextCore s.data).getLast? = some c → c ≠ '=' := by
    intro c hc he
    exact h (he ▸ hc)
  have hidem := sanitizeTextCore_idem s.data hne
  simp only [sanitize_text]
  exact congrArg String.mk hidem

/-- Witness for C9 at `s = "1+2="`, whose output `"1 + 2"` does not end
in `'='`. -/
theorem c9_idempotent_unless_trailing_eq_witness :
    (sanitize_text (some "1+2=")).data.getLast? ≠ some '=' ∧
    sanitize_text (some (sanitize_text (some "1+2="))) = sanitize_text (some "1+2=") :=
  ⟨by decide, c9_idempotent_unless_trailing_eq "1+2=" (by decide)⟩
